import Mathlib

/-!
Shallow embedding of the gitstat core: the commit stream parser
(internal/git/parser.go), the statistics aggregator and identity merge
operator (internal/stats/aggregator.go) over the data model of
internal/stats/types.go and internal/git/types.go.

Modelling conventions.
Go maps are modelled as association lists kept in insertion order; a Go
map read is a first-binding lookup, a Go map write replaces the first
binding or appends a new one.  Go map iteration order is unspecified, so
a function that iterates a map (the identity merge, the leaderboard
slice construction) takes the iteration order as an explicit list
argument, or is stated for the insertion order with the order called out
in the theorem.  Counters that are only incremented are Nat; TotalAuthors,
which the merge operator decrements, is Int as in Go.  float64 share and
risk score arithmetic is modelled exactly over Rat.  time.Time values are
Int seconds relative to the Unix epoch; the Go zero time (January 1 of
year 1) is the constant goZeroTime, and the display location is a fixed
offset in seconds.
-/

namespace Gitstat

/-- Association list first-binding lookup, as a Go map read. -/
def alookup [DecidableEq α] (k : α) : List (α × β) → Option β
  | [] => none
  | (k2, v) :: l => if k2 = k then some v else alookup k l

/-- Association list write, as a Go map assignment: replace the first
binding of the key, or append a new binding. -/
def aset [DecidableEq α] (k : α) (v : β) : List (α × β) → List (α × β)
  | [] => [(k, v)]
  | (k2, w) :: l => if k2 = k then (k2, v) :: l else (k2, w) :: aset k v l

/-- Association list delete, as the Go builtin delete: remove the first
binding of the key if present. -/
def aerase [DecidableEq α] (k : α) : List (α × β) → List (α × β)
  | [] => []
  | (k2, w) :: l => if k2 = k then l else (k2, w) :: aerase k l

/-- Go counter-map increment m[k] += n with the zero default value. -/
def abump [DecidableEq α] (k : α) (n : Nat) (l : List (α × Nat)) : List (α × Nat) :=
  aset k ((alookup k l).getD 0 + n) l

/-- Keys of an association list. -/
def akeys (l : List (α × β)) : List α := l.map Prod.fst

/-! ### Time model

Go time.Time is modelled as Int seconds since the Unix epoch.  The Go
zero time is January 1 of year 1 UTC.  Civil dates are converted with
the standard days-from-civil computation, using truncating Int division
exactly where the Go implementation uses machine integer division. -/

/-- Days from the Unix epoch of a proleptic Gregorian civil date. -/
def daysFromCivil (y m d : Int) : Int :=
  let y2 : Int := if m ≤ 2 then y - 1 else y
  let era : Int := (if 0 ≤ y2 then y2 else y2 - 399) / 400
  let yoe : Int := y2 - era * 400
  let mp : Int := (m + 9) % 12
  let doy : Int := (153 * mp + 2) / 5 + d - 1
  let doe : Int := yoe * 365 + yoe / 4 - yoe / 100 + doy
  era * 146097 + doe - 719468

/-- Seconds value of the Go zero time (January 1, year 1, UTC). -/
def goZeroTime : Int := 86400 * daysFromCivil 1 1 1

/-- Go time.Time.IsZero. -/
def timeIsZero (t : Int) : Bool := t = goZeroTime

/-! ### internal/git/types.go -/

/-- Author of internal/git/types.go: commit author identity. -/
structure Author where
  name : String
  email : String
deriving DecidableEq, Repr

/-- FileChange of internal/git/types.go: one numstat entry. -/
structure FileChange where
  additions : Nat
  deletions : Nat
  filePath : String
  isBinary : Bool
deriving DecidableEq, Repr

/-- Commit of internal/git/types.go: a single parsed commit. -/
structure Commit where
  hash : String
  shortHash : String
  author : Author
  authorDate : Int
  subject : String
  fileChanges : List FileChange
  isMerge : Bool
  prNumber : Nat
  mergeBranch : String
deriving DecidableEq, Repr

/-- Zero value of Commit, as allocated by the parser at a start sentinel.
The zero Go time.Time is goZeroTime. -/
def emptyCommit : Commit :=
  { hash := ""
    shortHash := ""
    author := { name := "", email := "" }
    authorDate := goZeroTime
    subject := ""
    fileChanges := []
    isMerge := false
    prNumber := 0
    mergeBranch := "" }

/-- ScanProgress of internal/git/types.go: one progress event. -/
structure ScanProgress where
  commitsParsed : Nat
  totalEstimate : Nat
  currentHash : String
  done : Bool
deriving DecidableEq, Repr

/-! ### Parser helpers (internal/git/parser.go) -/

/-- Numeric value of a decimal digit character, 0 for other characters. -/
def digitVal (c : Char) : Nat := if c.isDigit then c.toNat - 48 else 0

/-- Whether every character of the list is a decimal digit. -/
def allDigits (cs : List Char) : Bool := cs.all Char.isDigit

/-- Decimal value of a digit list. -/
def digitsToNat (cs : List Char) : Nat := cs.foldl (fun a c => a * 10 + digitVal c) 0

/-- Go strconv.Atoi restricted to the nonnegative numstat contract: the
value of a nonempty all-digit string, and 0 otherwise (Go returns 0
together with the error that the caller discards). -/
def goAtoi (s : String) : Nat :=
  let cs := s.toList
  if cs ≠ [] ∧ allDigits cs then digitsToNat cs else 0

/-- Leading run of decimal digits of a character list, with the rest. -/
def takeDigits : List Char → List Char × List Char
  | [] => ([], [])
  | c :: cs =>
    if c.isDigit then
      let (ds, rest) := takeDigits cs
      (c :: ds, rest)
    else ([], c :: cs)

/-- Characters of the regexp whitespace class. -/
def isSpaceClass (c : Char) : Bool :=
  c = ' ' ∨ c = '\t' ∨ c = '\n' ∨ c = '\x0b' ∨ c = '\x0c' ∨ c = '\r'

/-- Leading run of characters outside the class of quote, double quote
and whitespace, with the rest: the capture group of mergeBranchRegex. -/
def takeBranchChars : List Char → List Char × List Char
  | [] => ([], [])
  | c :: cs =>
    if c = '\'' ∨ c = '"' ∨ isSpaceClass c then ([], c :: cs)
    else
      let (ds, rest) := takeBranchChars cs
      (c :: ds, rest)

/-- Match of the tail of prNumberRegex at one position: the literal
"erge pull request #" followed by at least one digit. -/
def prTailMatch (cs : List Char) : Option Nat :=
  match cs.splitAt 19 with
  | (pre, rest) =>
    if pre = "erge pull request #".toList then
      match takeDigits rest with
      | ([], _) => none
      | (ds, _) => some (digitsToNat ds)
    else none

/-- First match of prNumberRegex, regexp [Mm]erge pull request #(\d+),
scanning left to right as Go regexp does. -/
def findPRNumber : List Char → Option Nat
  | [] => none
  | c :: cs =>
    if c = 'M' ∨ c = 'm' then
      match prTailMatch cs with
      | some n => some n
      | none => findPRNumber cs
    else findPRNumber cs

/-- Match of the tail of mergeBranchRegex at one position: after
[Mm] the literal "erge " then either "pull request #" digits " from "
and a capture, or "branch" with an optional quote and a capture;
alternatives are tried left to right as a backtracking search would. -/
def branchTailMatch (cs : List Char) : Option (List Char) :=
  match cs.splitAt 5 with
  | (pre, rest) =>
    if pre = "erge ".toList then
      (match rest.splitAt 14 with
      | (pre2, rest2) =>
        if pre2 = "pull request #".toList then
          match takeDigits rest2 with
          | ([], _) => none
          | (_, rest3) =>
            match rest3.splitAt 6 with
            | (pre4, rest4) =>
              if pre4 = " from ".toList then
                match takeBranchChars rest4 with
                | ([], _) => none
                | (cap, _) => some cap
              else none
        else
          match rest.splitAt 7 with
          | (pre5, rest5) =>
            if pre5 = "branch ".toList then
              let rest6 := match rest5 with
                | '\'' :: r => r
                | r => r
              match takeBranchChars rest6 with
              | ([], _) => none
              | (cap, _) => some cap
            else none)
    else none

/-- First match of mergeBranchRegex,
regexp [Mm]erge (?:pull request #\d+ from |branch \x27?)([^\x27"\s]+). -/
def findMergeBranch : List Char → Option (List Char)
  | [] => none
  | c :: cs =>
    if c = 'M' ∨ c = 'm' then
      match branchTailMatch cs with
      | some cap => some cap
      | none => findMergeBranch cs
    else findMergeBranch cs

/-- Offset seconds of an RFC3339 zone suffix; none when malformed. -/
def parseZone : List Char → Option Int
  | ['Z'] => some 0
  | [s, h1, h2, ':', m1, m2] =>
    if (s = '+' ∨ s = '-') ∧ allDigits [h1, h2] ∧ allDigits [m1, m2] then
      let v : Int := (digitsToNat [h1, h2] * 3600 + digitsToNat [m1, m2] * 60 : Nat)
      some (if s = '+' then v else -v)
    else none
  | _ => none

/-- Go time.Parse with the RFC3339 layout, as used for the author date
header line: seconds since the Unix epoch on success, the Go zero time
on any parse error (the parser discards the error, leaving the zero
value).  Fractional seconds are not produced by the git %aI format. -/
def parseRFC3339 (s : String) : Int :=
  match s.toList with
  | y1 :: y2 :: y3 :: y4 :: '-' :: m1 :: m2 :: '-' :: d1 :: d2 :: 'T' ::
      h1 :: h2 :: ':' :: mi1 :: mi2 :: ':' :: s1 :: s2 :: zone =>
    if allDigits [y1, y2, y3, y4, m1, m2, d1, d2, h1, h2, mi1, mi2, s1, s2] then
      match parseZone zone with
      | some off =>
        86400 * daysFromCivil (digitsToNat [y1, y2, y3, y4]) (digitsToNat [m1, m2])
            (digitsToNat [d1, d2])
          + 3600 * (digitsToNat [h1, h2] : Int) + 60 * (digitsToNat [mi1, mi2] : Int)
          + (digitsToNat [s1, s2] : Int) - off
      | none => goZeroTime
    else goZeroTime
  | _ => goZeroTime

/-- Split of a character list on one separator character, the behavior
of Go strings.Split for a one-character separator. -/
def splitCharAux (sep : Char) : List Char → List Char → List String
  | [], acc => [String.mk acc.reverse]
  | c :: cs, acc =>
    if c = sep then String.mk acc.reverse :: splitCharAux sep cs []
    else splitCharAux sep cs (c :: acc)

/-- Split of a string on one separator character. -/
def splitChar (sep : Char) (s : String) : List String := splitCharAux sep s.toList []

/-- Go strings.Fields on a git parent-hash line: split on spaces and
drop empty pieces (parent lines contain no other whitespace). -/
def goFields (s : String) : List String := (splitChar ' ' s).filter (fun p => p ≠ "")

/-! ### The line state machine of Parse (internal/git/parser.go) -/

/-- Start sentinel of the custom log format. -/
def commitStartLine : String := "COMMIT_START"

/-- End sentinel of the custom log format. -/
def commitEndLine : String := "COMMIT_END"

/-- parseCommitLine of parser.go: fill one header field by line index. -/
def parseCommitLine (c : Commit) (lineNum : Nat) (line : String) : Commit :=
  match lineNum with
  | 0 => { c with hash := line }
  | 1 => { c with shortHash := line }
  | 2 => { c with author := { c.author with name := line } }
  | 3 => { c with author := { c.author with email := line } }
  | 4 => { c with authorDate := parseRFC3339 line }
  | 5 => { c with isMerge := 2 ≤ (goFields line).length }
  | 6 =>
    let c := { c with subject := line }
    if c.isMerge then
      let c := match findPRNumber line.toList with
        | some n => { c with prNumber := n }
        | none => c
      match findMergeBranch line.toList with
      | some cap => { c with mergeBranch := String.mk cap }
      | none => c
    else c
  | _ => c

/-- parseNumstat of parser.go: a tab-separated
additions, deletions, path triple, binary when the first field is a
dash; any other shape is rejected. -/
def parseNumstat (line : String) : Option FileChange :=
  match splitChar '\t' line with
  | [p0, p1, p2] =>
    if p0 = "-" then
      some { additions := 0, deletions := 0, filePath := p2, isBinary := true }
    else
      some { additions := goAtoi p0, deletions := goAtoi p1, filePath := p2, isBinary := false }
  | _ => none

/-- Loop state of Parse: the pending commit, header line index, running
commit count, numstat mode flags, and the emitted commit and progress
sequences in emission order. -/
structure ParseState where
  current : Option Commit
  lineNum : Nat
  commitCount : Nat
  inNumstat : Bool
  seenNumstat : Bool
  commits : List Commit
  progress : List ScanProgress
deriving DecidableEq, Repr

/-- Initial loop state of Parse. -/
def initParseState : ParseState :=
  { current := none
    lineNum := 0
    commitCount := 0
    inNumstat := false
    seenNumstat := false
    commits := []
    progress := [] }

/-- One iteration of the scanner loop of Parse: the four-way switch on
the current line. -/
def parseStep (s : ParseState) (line : String) : ParseState :=
  if line = commitStartLine then
    match s.current with
    | some c =>
      { current := some emptyCommit
        lineNum := 0
        commitCount := s.commitCount + 1
        inNumstat := false
        seenNumstat := false
        commits := s.commits ++ [c]
        progress := s.progress ++
          [{ commitsParsed := s.commitCount + 1
             totalEstimate := 0
             currentHash := c.shortHash
             done := false }] }
    | none =>
      { s with
        current := some emptyCommit
        lineNum := 0
        inNumstat := false
        seenNumstat := false }
  else if line = commitEndLine then
    { s with inNumstat := true, seenNumstat := false }
  else
    match s.current with
    | none => s
    | some c =>
      if s.inNumstat then
        if line = "" then s
        else
          match parseNumstat line with
          | some fc =>
            { s with
              current := some { c with fileChanges := c.fileChanges ++ [fc] }
              seenNumstat := true }
          | none => s
      else
        { s with
          current := some (parseCommitLine c s.lineNum line)
          lineNum := s.lineNum + 1 }

/-- End-of-input handling of Parse: the pending commit, if any, is
emitted together with a done progress event carrying its short hash,
and a final done progress event is always emitted. -/
def parseFinish (s : ParseState) : ParseState :=
  match s.current with
  | some c =>
    { s with
      commits := s.commits ++ [c]
      commitCount := s.commitCount + 1
      progress := s.progress ++
        [{ commitsParsed := s.commitCount + 1
           totalEstimate := 0
           currentHash := c.shortHash
           done := true },
         { commitsParsed := s.commitCount + 1
           totalEstimate := 0
           currentHash := ""
           done := true }] }
  | none =>
    { s with progress := s.progress ++
        [{ commitsParsed := s.commitCount
           totalEstimate := 0
           currentHash := ""
           done := true }] }

/-- Parse of parser.go on a line stream: fold the scanner loop over the
lines, then run the end-of-input handling. -/
def parseLines (lines : List String) : ParseState :=
  parseFinish (lines.foldl parseStep initParseState)

/-! ### Data model of internal/stats/types.go -/

/-- AuthorStats: running totals of one author accumulator. -/
structure AuthorStats where
  name : String
  email : String
  commits : Nat
  additions : Nat
  deletions : Nat
  filesTouched : List (String × Nat)
  firstCommit : Int
  lastCommit : Int
deriving DecidableEq, Repr

/-- NewAuthorStats: fresh accumulator; Go zero values for the counters
and the zero time for the date range. -/
def newAuthorStats (name email : String) : AuthorStats :=
  { name := name
    email := email
    commits := 0
    additions := 0
    deletions := 0
    filesTouched := []
    firstCommit := goZeroTime
    lastCommit := goZeroTime }

/-- FileStats: running totals of one file accumulator; authors maps an
author email to its touch count of this file. -/
structure FileStats where
  path : String
  totalChanges : Nat
  touchCount : Nat
  authors : List (String × Nat)
  additions : Nat
  deletions : Nat
deriving DecidableEq, Repr

/-- NewFileStats. -/
def newFileStats (path : String) : FileStats :=
  { path := path, totalChanges := 0, touchCount := 0, authors := [],
    additions := 0, deletions := 0 }

/-- DirAuthorStats: per-author record inside one directory accumulator.
The share percentage is exact rational arithmetic in place of float64. -/
structure DirAuthorStats where
  name : String
  email : String
  commits : Nat
  changes : Nat
  share : ℚ
deriving DecidableEq, Repr

/-- DirStats: one directory accumulator. -/
structure DirStats where
  path : String
  authors : List (String × DirAuthorStats)
  totalChanges : Nat
  touchCount : Nat
deriving DecidableEq, Repr

/-- NewDirStats. -/
def newDirStats (path : String) : DirStats :=
  { path := path, authors := [], totalChanges := 0, touchCount := 0 }

/-- PRAuthorStats: merge activity of one author. -/
structure PRAuthorStats where
  name : String
  email : String
  mergeCount : Nat
  totalChanges : Nat
  prNumbers : List Nat
deriving DecidableEq, Repr

/-- PRInfo: compact record of one merge commit. -/
structure PRInfo where
  prNumber : Nat
  mergedBy : String
  mergedByEmail : String
  mergedAt : Int
  branch : String
  subject : String
  additions : Nat
  deletions : Nat
  filesCount : Nat
deriving DecidableEq, Repr

/-- PRStatistics: merge and pull request totals. -/
structure PRStatistics where
  totalMerges : Nat
  totalPRs : Nat
  mergesByAuthor : List (String × PRAuthorStats)
  prList : List PRInfo
  dailyMerges : List (Int × Nat)
deriving DecidableEq, Repr

/-- NewPRStatistics. -/
def newPRStatistics : PRStatistics :=
  { totalMerges := 0, totalPRs := 0, mergesByAuthor := [], prList := [],
    dailyMerges := [] }

/-- Repository of types.go.  Daily keys are epoch day numbers in the
display zone, hourly keys are Monday-indexed weekday and hour pairs; the
fixed 7 by 24 array is modelled by the sparse count map with zero
default, which carries the same counts.  TotalAuthors is Int because the
merge operator decrements it.  The DateRange configuration record is
metadata never read by any modelled operation and is omitted. -/
structure Repository where
  path : String
  totalCommits : Nat
  totalAuthors : Int
  authors : List (String × AuthorStats)
  fileStats : List (String × FileStats)
  dirStats : List (String × DirStats)
  dailyActivity : List (Int × Nat)
  hourlyMatrix : List ((Nat × Nat) × Nat)
  totalAdditions : Nat
  totalDeletions : Nat
  codebaseSize : Nat
  prStats : PRStatistics
deriving DecidableEq, Repr

/-- NewRepository. -/
def newRepository (path : String) : Repository :=
  { path := path
    totalCommits := 0
    totalAuthors := 0
    authors := []
    fileStats := []
    dirStats := []
    dailyActivity := []
    hourlyMatrix := []
    totalAdditions := 0
    totalDeletions := 0
    codebaseSize := 0
    prStats := newPRStatistics }

/-! ### Path and time bucketing helpers of the aggregator -/

/-- One element step of the Go path.Clean element scan: skip empty and
dot elements, resolve a dotdot against the pending stack. -/
def cleanStep (rooted : Bool) (stack : List String) (el : String) : List String :=
  if el = "" ∨ el = "." then stack
  else if el = ".." then
    match stack.getLast? with
    | some last => if last = ".." then stack ++ [".."] else stack.dropLast
    | none => if rooted then [] else [".."]
  else stack ++ [el]

/-- Join of path elements with slashes. -/
def joinSlash : List String → String
  | [] => ""
  | [x] => x
  | x :: xs => x ++ "/" ++ joinSlash xs

/-- Go filepath.Clean on slash-separated paths. -/
def goPathClean (p : String) : String :=
  if p = "" then "."
  else
    let rooted := match p.toList with
      | '/' :: _ => true
      | _ => false
    let stack := (splitChar '/' p).foldl (cleanStep rooted) []
    let out := joinSlash stack
    if rooted then "/" ++ out
    else if out = "" then "." else out

/-- getTopDir of aggregator.go: first component of the cleaned path when
it has more than one component, else the root marker dot. -/
def getTopDir (p : String) : String :=
  match splitChar '/' (goPathClean p) with
  | q :: _ :: _ => q
  | _ => "."

/-- Epoch day number of a timestamp in the fixed-offset display zone:
the value of the Format date key. -/
def dateKey (tz t : Int) : Int := (t + tz).fdiv 86400

/-- Monday-indexed weekday in the display zone.  The Unix epoch day was
a Thursday, Go Weekday is Sunday-indexed, and the aggregator rotates it
by six. -/
def weekdayMonday (tz t : Int) : Nat :=
  ((((dateKey tz t) + 4).emod 7).toNat + 6) % 7

/-- Hour of day in the display zone. -/
def hourOf (tz t : Int) : Nat := (((t + tz).emod 86400) / 3600).toNat

/-! ### ProcessCommit (aggregator.go) -/

/-- processMergeCommit of aggregator.go: merge and pull request
bookkeeping for one merge commit. -/
def processMergeCommit (tz : Int) (r : Repository) (c : Commit) : Repository :=
  let pr := r.prStats
  let pr := { pr with totalMerges := pr.totalMerges + 1 }
  let pr := { pr with dailyMerges := abump (dateKey tz c.authorDate) 1 pr.dailyMerges }
  let nb := c.fileChanges.filter (fun fc => !fc.isBinary)
  let adds := nb.foldl (fun a fc => a + fc.additions) 0
  let dels := nb.foldl (fun a fc => a + fc.deletions) 0
  let astats := match alookup c.author.email pr.mergesByAuthor with
    | some a => a
    | none =>
      { name := c.author.name, email := c.author.email, mergeCount := 0,
        totalChanges := 0, prNumbers := [] }
  let astats := { astats with
    mergeCount := astats.mergeCount + 1
    totalChanges := astats.totalChanges + (adds + dels) }
  let astats := if 0 < c.prNumber then
      { astats with prNumbers := astats.prNumbers ++ [c.prNumber] }
    else astats
  let pr := { pr with mergesByAuthor := aset c.author.email astats pr.mergesByAuthor }
  let pr := if 0 < c.prNumber then { pr with totalPRs := pr.totalPRs + 1 } else pr
  let info : PRInfo :=
    { prNumber := c.prNumber
      mergedBy := c.author.name
      mergedByEmail := c.author.email
      mergedAt := c.authorDate
      branch := c.mergeBranch
      subject := c.subject
      additions := adds
      deletions := dels
      filesCount := c.fileChanges.length }
  { r with prStats := { pr with prList := pr.prList ++ [info] } }

/-- Accumulator threaded through the file-change loop of ProcessCommit:
the author record under mutation, the file and directory indices and the
repository line totals. -/
structure FoldAcc where
  author : AuthorStats
  fileStats : List (String × FileStats)
  dirStats : List (String × DirStats)
  totalAdditions : Nat
  totalDeletions : Nat
deriving DecidableEq, Repr

/-- Author-record part of one non-binary file change: line totals and
the per-file touch counter of the author. -/
def updateAuthorFC (fc : FileChange) (a : AuthorStats) : AuthorStats :=
  { a with
    additions := a.additions + fc.additions
    deletions := a.deletions + fc.deletions
    filesTouched := abump fc.filePath 1 a.filesTouched }

/-- File-index part of one non-binary file change: the accumulator is
created on first observation, then its line totals, total changes,
touch count and per-author touch count are advanced. -/
def updateFileStats (au : Author) (fc : FileChange)
    (fileStats : List (String × FileStats)) : List (String × FileStats) :=
  let f0 := (alookup fc.filePath fileStats).getD (newFileStats fc.filePath)
  aset fc.filePath
    { f0 with
      additions := f0.additions + fc.additions
      deletions := f0.deletions + fc.deletions
      totalChanges := f0.totalChanges + (fc.additions + fc.deletions)
      touchCount := f0.touchCount + 1
      authors := abump au.email 1 f0.authors }
    fileStats

/-- Per-directory author record part of one non-binary file change. -/
def updateDirAuthor (au : Author) (v : Nat)
    (authors : List (String × DirAuthorStats)) : List (String × DirAuthorStats) :=
  let da0 := (alookup au.email authors).getD
    { name := au.name, email := au.email, commits := 0, changes := 0, share := 0 }
  aset au.email { da0 with commits := da0.commits + 1, changes := da0.changes + v } authors

/-- Directory-index part of one non-binary file change. -/
def updateDirStats (au : Author) (dk : String) (v : Nat)
    (dirStats : List (String × DirStats)) : List (String × DirStats) :=
  let d0 := (alookup dk dirStats).getD (newDirStats dk)
  let d1 := { d0 with totalChanges := d0.totalChanges + v, touchCount := d0.touchCount + 1 }
  aset dk { d1 with authors := updateDirAuthor au v d1.authors } dirStats

/-- One iteration of the file-change loop of ProcessCommit: binary
changes are skipped, otherwise the author, file, directory and total
counters are advanced. -/
def applyFileChange (au : Author) (acc : FoldAcc) (fc : FileChange) : FoldAcc :=
  if fc.isBinary then acc
  else
    { author := updateAuthorFC fc acc.author
      fileStats := updateFileStats au fc acc.fileStats
      dirStats := updateDirStats au (getTopDir fc.filePath) (fc.additions + fc.deletions)
        acc.dirStats
      totalAdditions := acc.totalAdditions + fc.additions
      totalDeletions := acc.totalDeletions + fc.deletions }

/-- Scalar and time-bucket part of ProcessCommit, in statement order:
the total-commit increment, the merge bookkeeping, the first-seen
total-author increment, the daily bucket and the weekday-hour bucket.
The author map is untouched here; the looked-up author record is
finished by the file-change loop and written back afterwards. -/
def bumpTotals (tz : Int) (r : Repository) (c : Commit) : Repository :=
  let r1 := { r with totalCommits := r.totalCommits + 1 }
  let r2 := if c.isMerge then processMergeCommit tz r1 c else r1
  let r3 := if alookup c.author.email r2.authors = none then
      { r2 with totalAuthors := r2.totalAuthors + 1 }
    else r2
  let r4 := { r3 with dailyActivity := abump (dateKey tz c.authorDate) 1 r3.dailyActivity }
  { r4 with
    hourlyMatrix := abump (weekdayMonday tz c.authorDate, hourOf tz c.authorDate) 1 r4.hourlyMatrix }

/-- Author record part of ProcessCommit: the existing accumulator or a
fresh one, with the commit counter and the first and last seen
timestamps advanced. -/
def commitAuthor (r : Repository) (c : Commit) : AuthorStats :=
  let a0 := (alookup c.author.email r.authors).getD
    (newAuthorStats c.author.name c.author.email)
  let a1 := { a0 with commits := a0.commits + 1 }
  let a2 := if timeIsZero a1.firstCommit ∨ c.authorDate < a1.firstCommit then
      { a1 with firstCommit := c.authorDate }
    else a1
  if a2.lastCommit < c.authorDate then { a2 with lastCommit := c.authorDate } else a2

/-- Accumulator entering the file-change loop of ProcessCommit. -/
def preAcc (tz : Int) (r : Repository) (c : Commit) : FoldAcc :=
  { author := commitAuthor (bumpTotals tz r c) c
    fileStats := (bumpTotals tz r c).fileStats
    dirStats := (bumpTotals tz r c).dirStats
    totalAdditions := (bumpTotals tz r c).totalAdditions
    totalDeletions := (bumpTotals tz r c).totalDeletions }

/-- ProcessCommit of aggregator.go: one commit observation. -/
def processCommit (tz : Int) (r : Repository) (c : Commit) : Repository :=
  let r1 := bumpTotals tz r c
  let acc := c.fileChanges.foldl (applyFileChange c.author) (preAcc tz r c)
  { r1 with
    authors := aset c.author.email acc.author r1.authors
    fileStats := acc.fileStats
    dirStats := acc.dirStats
    totalAdditions := acc.totalAdditions
    totalDeletions := acc.totalDeletions }

/-- Share recomputation of one directory, shared verbatim by Finalize
and by the tail of ApplyAuthorMerges: when the directory has changes,
each author share becomes its changed volume over the directory total
times one hundred. -/
def recomputeShares (d : DirStats) : DirStats :=
  if 0 < d.totalChanges then
    { d with authors := d.authors.map (fun ea =>
        (ea.1, { ea.2 with share := (ea.2.changes : ℚ) / (d.totalChanges : ℚ) * 100 })) }
  else d

/-- Finalize of aggregator.go: compute directory ownership shares. -/
def finalizeRepo (r : Repository) : Repository :=
  { r with dirStats := r.dirStats.map (fun kd => (kd.1, recomputeShares kd.2)) }

/-! ### ApplyAuthorMerges (aggregator.go)

The Go operator iterates the merges map three times; map iteration order
is unspecified, so the model takes the mapping as an explicit list of
alias and primary pairs and folds it in list order.  The primaries set
computed at the top of the Go function is dead code and is not
modelled. -/

/-- One alias entry of the author accumulator merge loop: skip a
self-mapping, skip an entry whose alias or primary accumulator is
absent, otherwise fold the alias into the primary, delete the alias and
decrement the author total. -/
def mergeAuthorPair (st : List (String × AuthorStats) × Int) (ap : String × String) :
    List (String × AuthorStats) × Int :=
  if ap.1 = ap.2 then st
  else
    match alookup ap.1 st.1, alookup ap.2 st.1 with
    | some al, some prim =>
      let prim := { prim with
        commits := prim.commits + al.commits
        additions := prim.additions + al.additions
        deletions := prim.deletions + al.deletions
        filesTouched := al.filesTouched.foldl (fun ft fc => abump fc.1 fc.2 ft) prim.filesTouched
        firstCommit := if al.firstCommit < prim.firstCommit then al.firstCommit else prim.firstCommit
        lastCommit := if prim.lastCommit < al.lastCommit then al.lastCommit else prim.lastCommit }
      (aerase ap.1 (aset ap.2 prim st.1), st.2 - 1)
    | _, _ => st

/-- One alias entry of the per-file author re-keying loop: when the
alias email carries a touch count on this file, add it to the primary
key and delete the alias key. -/
def rekeyFileAuthors (authors : List (String × Nat)) (ap : String × String) :
    List (String × Nat) :=
  if ap.1 = ap.2 then authors
  else
    match alookup ap.1 authors with
    | some cnt => aerase ap.1 (abump ap.2 cnt authors)
    | none => authors

/-- One alias entry of the per-directory author re-keying loop: rename
the alias record to the primary key when the primary is absent, else
numerically merge commits and changes into the primary record, then
delete the alias key. -/
def rekeyDirAuthors (authors : List (String × DirAuthorStats)) (ap : String × String) :
    List (String × DirAuthorStats) :=
  if ap.1 = ap.2 then authors
  else
    match alookup ap.1 authors with
    | none => authors
    | some al =>
      match alookup ap.2 authors with
      | none => aerase ap.1 (aset ap.2 { al with email := ap.2 } authors)
      | some prim =>
        aerase ap.1 (aset ap.2
          { prim with commits := prim.commits + al.commits, changes := prim.changes + al.changes }
          authors)

/-- ApplyAuthorMerges of aggregator.go. -/
def applyAuthorMerges (r : Repository) (merges : List (String × String)) : Repository :=
  if merges = [] then r
  else
    let st := merges.foldl mergeAuthorPair (r.authors, r.totalAuthors)
    { r with
      authors := st.1
      totalAuthors := st.2
      fileStats := r.fileStats.map (fun kf =>
        (kf.1, { kf.2 with authors := merges.foldl rekeyFileAuthors kf.2.authors }))
      dirStats := r.dirStats.map (fun kd =>
        (kd.1, recomputeShares { kd.2 with authors := merges.foldl rekeyDirAuthors kd.2.authors })) }

/-! ### Sorting model

Go sort.Slice receives a less closure and guarantees only a permutation
of the slice ordered by the closure; it is not stable.  The model is a
deterministic insertion sort driven by the Boolean test that places x
before y exactly when the Go less closure does not demand y before x,
which realises one admissible sort.Slice outcome. -/

/-- Insertion of one element in front of the first element it may
precede. -/
def orderedInsertB (le : α → α → Bool) (x : α) : List α → List α
  | [] => [x]
  | y :: l => if le x y then x :: y :: l else y :: orderedInsertB le x l

/-- Insertion sort driven by a Boolean precedence test. -/
def insertionSortB (le : α → α → Bool) : List α → List α
  | [] => []
  | x :: l => orderedInsertB le x (insertionSortB le l)

/-! ### Derived views (aggregator.go) -/

/-- Closed enumeration behind the GetLeaderboard sort key switch. -/
inductive LeaderKey
  | name
  | commits
  | additions
  | deletions
  | net
deriving DecidableEq, Repr

/-- Sort key selected by the GetLeaderboard switch; unrecognized keys
fall back to the commits comparator of the default branch. -/
def leaderKeyOf : String → LeaderKey
  | "name" => .name
  | "commits" => .commits
  | "additions" => .additions
  | "deletions" => .deletions
  | "net" => .net
  | _ => .commits

/-- Strict comparison of the GetLeaderboard switch for one key. -/
def leaderLess (k : LeaderKey) (a b : AuthorStats) : Bool :=
  match k with
  | .name => decide (a.name < b.name)
  | .commits => decide (a.commits < b.commits)
  | .additions => decide (a.additions < b.additions)
  | .deletions => decide (a.deletions < b.deletions)
  | .net => decide ((a.additions : Int) - a.deletions < (b.additions : Int) - b.deletions)

/-- Less closure passed to sort.Slice by GetLeaderboard: the key
comparison, negated for descending order. -/
def goLeaderLess (sortBy : String) (ascending : Bool) (a b : AuthorStats) : Bool :=
  if ascending then leaderLess (leaderKeyOf sortBy) a b
  else !(leaderLess (leaderKeyOf sortBy) a b)

/-- GetLeaderboard of aggregator.go.  The Go method first copies the
Authors map values in map iteration order, which is unspecified; the
model therefore receives that iteration order as the explicit input
list. -/
def getLeaderboard (authorsIter : List AuthorStats) (sortBy : String) (ascending : Bool) :
    List AuthorStats :=
  insertionSortB (fun x y => !(goLeaderLess sortBy ascending y x)) authorsIter

/-- HotspotFile of types.go; the float64 scores are exact rationals. -/
structure HotspotFile where
  path : String
  churnScore : ℚ
  authorCount : Nat
  riskScore : ℚ
  changes : Nat
  touchCount : Nat
deriving DecidableEq, Repr

/-- Maximum total changes over all file accumulators, the first
normalization pass of GetHotspots. -/
def maxChangesOf (r : Repository) : Nat :=
  r.fileStats.foldl (fun m kf => if m < kf.2.totalChanges then kf.2.totalChanges else m) 0

/-- Maximum touch count over all file accumulators. -/
def maxTouchesOf (r : Repository) : Nat :=
  r.fileStats.foldl (fun m kf => if m < kf.2.touchCount then kf.2.touchCount else m) 0

/-- Churn denominator of GetHotspots: the observed maximum, replaced by
one when it is zero. -/
def hotDenomChanges (r : Repository) : Nat :=
  if maxChangesOf r = 0 then 1 else maxChangesOf r

/-- Touch denominator of GetHotspots. -/
def hotDenomTouches (r : Repository) : Nat :=
  if maxTouchesOf r = 0 then 1 else maxTouchesOf r

/-- Risk scoring of one candidate file in GetHotspots. -/
def mkHotspot (r : Repository) (f : FileStats) : HotspotFile :=
  let churn : ℚ := (f.totalChanges : ℚ) / (hotDenomChanges r : ℚ)
  let touch : ℚ := (f.touchCount : ℚ) / (hotDenomTouches r : ℚ)
  let authorScore : ℚ := (f.authors.length : ℚ) / (r.totalAuthors : ℚ)
  { path := f.path
    churnScore := churn * 100
    authorCount := f.authors.length
    riskScore := (churn * (2 / 5) + touch * (3 / 10) + authorScore * (3 / 10)) * 100
    changes := f.totalChanges
    touchCount := f.touchCount }

/-- Candidate pass of GetHotspots: files with fewer than two recorded
authors are skipped, the rest are scored. -/
def hotspotCandidates (r : Repository) : List HotspotFile :=
  r.fileStats.filterMap (fun kf =>
    if 2 ≤ kf.2.authors.length then some (mkHotspot r kf.2) else none)

/-- GetHotspots of aggregator.go: scored candidates sorted by
descending risk score, optionally truncated to the first limit. -/
def getHotspots (r : Repository) (limit : Int) : List HotspotFile :=
  let hs := insertionSortB (fun x y => decide (y.riskScore ≤ x.riskScore)) (hotspotCandidates r)
  if 0 < limit ∧ limit < (hs.length : Int) then hs.take limit.toNat else hs

/-! ### Reachability -/

/-- Aggregation of a commit list into a fresh repository model, the
observe-only session of the aggregator. -/
def aggregate (tz : Int) (cs : List Commit) : Repository :=
  cs.foldl (processCommit tz) (newRepository "")

/-- Repository models reachable from a fresh model through commit
observations, identity merges and finalizations. -/
inductive Reachable (tz : Int) : Repository → Prop
  | fresh (path : String) : Reachable tz (newRepository path)
  | observe {r : Repository} (c : Commit) : Reachable tz r → Reachable tz (processCommit tz r c)
  | merge {r : Repository} (ms : List (String × String)) :
      Reachable tz r → Reachable tz (applyAuthorMerges r ms)
  | finalized {r : Repository} : Reachable tz r → Reachable tz (finalizeRepo r)

/-- Sum of a projection of the values of an association list. -/
def asum {α β M : Type} [AddCommMonoid M] (f : β → M) (l : List (α × β)) : M :=
  (l.map (fun p => f p.2)).sum

/-! ### Claim-level predicates -/

/-- Monotone progress stream: the commits-parsed counts never
decrease along the emission order. -/
def progMono (ps : List ScanProgress) : Prop :=
  ps.Pairwise (fun a b => a.commitsParsed ≤ b.commitsParsed)

/-- Touch count recorded for a path in a file index, zero when the path
has no file accumulator. -/
def fileTouch (l : List (String × FileStats)) (p : String) : Nat :=
  ((alookup p l).map FileStats.touchCount).getD 0

/-- Touch count recorded for a path, zero when the path has no file
accumulator. -/
def touchCountOf (r : Repository) (p : String) : Nat := fileTouch r.fileStats p

/-- Number of non-binary change entries naming a path across a commit
list. -/
def nonBinaryTouches (cs : List Commit) (p : String) : Nat :=
  (cs.map (fun c =>
    c.fileChanges.countP (fun fc => !fc.isBinary && decide (fc.filePath = p)))).sum

/-- Number of distinct commits of the list containing any change entry
naming the path, binary or not. -/
def commitsAffecting (cs : List Commit) (p : String) : Nat :=
  (cs.filter (fun c => c.fileChanges.any (fun fc => decide (fc.filePath = p)))).length

/-- Per-key nonstrict comparison matching the GetLeaderboard switch. -/
def leaderKeyLE (k : LeaderKey) (a b : AuthorStats) : Prop :=
  match k with
  | .name => a.name ≤ b.name
  | .commits => a.commits ≤ b.commits
  | .additions => a.additions ≤ b.additions
  | .deletions => a.deletions ≤ b.deletions
  | .net => (a.additions : Int) - a.deletions ≤ (b.additions : Int) - b.deletions

/-- Correct pairwise order of a leaderboard for a sort key and
direction. -/
def leaderOrd (sortBy : String) (ascending : Bool) (a b : AuthorStats) : Prop :=
  if ascending then leaderKeyLE (leaderKeyOf sortBy) a b
  else leaderKeyLE (leaderKeyOf sortBy) b a

/-- Risk score formula of the hotspot claim: one hundred times the
weighted churn, touch and author-diversity ratios with defaulted
denominators. -/
def hotspotSpecScore (r : Repository) (f : FileStats) : ℚ :=
  ((f.totalChanges : ℚ) / (hotDenomChanges r : ℚ) * (2 / 5)
    + (f.touchCount : ℚ) / (hotDenomTouches r : ℚ) * (3 / 10)
    + (f.authors.length : ℚ) / (r.totalAuthors : ℚ) * (3 / 10)) * 100

/-- Conjunction asserted by the hotspot claim about one repository
model: the candidate set is exactly the files with at least two
recorded authors, every risk score follows the formula, lies between
zero and one hundred, and the result is sorted by descending risk. -/
def hotspotsOk (r : Repository) : Prop :=
  ((getHotspots r 0).map HotspotFile.path).Perm
      ((r.fileStats.filter (fun kf => 2 ≤ kf.2.authors.length)).map (fun kf => kf.2.path))
  ∧ (∀ h ∈ getHotspots r 0, ∃ kf ∈ r.fileStats, h.path = kf.2.path ∧
      2 ≤ kf.2.authors.length ∧ h.riskScore = hotspotSpecScore r kf.2)
  ∧ (∀ h ∈ getHotspots r 0, 0 ≤ h.riskScore ∧ h.riskScore ≤ 100)
  ∧ (getHotspots r 0).Pairwise (fun h1 h2 => h2.riskScore ≤ h1.riskScore)

/-- Sum of the ownership shares recorded in one directory accumulator. -/
def dirSharesSum (d : DirStats) : ℚ := asum DirAuthorStats.share d.authors

/-- Sum of the per-author changed volumes of one directory accumulator. -/
def dirChangesSum (d : DirStats) : Nat := asum DirAuthorStats.changes d.authors

/-- Sum of the per-author commit counters of one directory accumulator. -/
def sumAuthorCommits (authors : List (String × AuthorStats)) : Nat :=
  asum AuthorStats.commits authors

/-- Number of alias entries of a merge list whose author accumulator
merge succeeds, evaluated sequentially against the evolving author map
exactly as the merge loop does. -/
def mergeSuccessCount (authors : List (String × AuthorStats)) :
    List (String × String) → Nat
  | [] => 0
  | ap :: ms =>
    if ap.1 = ap.2 then mergeSuccessCount authors ms
    else
      match alookup ap.1 authors, alookup ap.2 authors with
      | some _, some _ => mergeSuccessCount (mergeAuthorPair (authors, 0) ap).1 ms + 1
      | _, _ => mergeSuccessCount authors ms

/-! ### Concrete example data used by the claim theorems -/

/-- Complete single-record log stream. -/
def demoOneRecord : List String :=
  ["COMMIT_START", "f00dfeed", "f00d", "Jo", "jo@x.com",
   "2024-01-01T00:00:00Z", "p1", "add parser", "COMMIT_END", "1\t2\tmain.go"]

/-- Log stream truncated inside the header of its second record. -/
def demoTruncated : List String := demoOneRecord ++ ["COMMIT_START", "cafebabe"]

/-- Non-binary change entry. -/
def demoChange (p : String) (a d : Nat) : FileChange :=
  { additions := a, deletions := d, filePath := p, isBinary := false }

/-- Plain non-merge commit. -/
def demoCommit (h name email : String) (t : Int) (fcs : List FileChange) : Commit :=
  { hash := h
    shortHash := h
    author := { name := name, email := email }
    authorDate := t
    subject := "work"
    fileChanges := fcs
    isMerge := false
    prNumber := 0
    mergeBranch := "" }

/-- Scenario commit: Jo under a@x.com touches main.go with 10 additions and 0 deletions. -/
def commitJoA : Commit := demoCommit "a1" "Jo" "a@x.com" 100 [demoChange "main.go" 10 0]

/-- Scenario commit: Jo under b@x.com touches main.go with 5 additions and 2 deletions. -/
def commitJoB : Commit := demoCommit "b1" "Jo" "b@x.com" 200 [demoChange "main.go" 5 2]

/-- Scenario commit: Ann under c@x.com touches util/io.go with 1 addition and 1 deletion. -/
def commitAnn : Commit := demoCommit "c1" "Ann" "c@x.com" 300 [demoChange "util/io.go" 1 1]

/-- Commit whose only change to main.go is binary. -/
def commitBin : Commit :=
  demoCommit "d1" "Jo" "a@x.com" 400
    [{ additions := 0, deletions := 0, filePath := "main.go", isBinary := true }]

/-- Scenario commit list. -/
def demoCommits : List Commit := [commitJoA, commitJoB, commitAnn]

/-- Scenario repository model. -/
def demoRepo : Repository := aggregate 0 demoCommits

/-- Well-formed identity merge map folding b@x.com into a@x.com. -/
def demoMerges : List (String × String) := [("b@x.com", "a@x.com"), ("a@x.com", "a@x.com")]

/-! ### Lemmas about the association list operations -/

section AssocLemmas

variable {α : Type} {β : Type} [DecidableEq α]

theorem alookup_aset_self (k : α) (v : β) (l : List (α × β)) :
    alookup k (aset k v l) = some v := by
  induction l with
  | nil => simp [aset, alookup]
  | cons p l ih =>
    obtain ⟨k2, w⟩ := p
    by_cases h : k2 = k
    · simp [aset, alookup, h]
    · simp [aset, alookup, h, ih]

theorem akeys_nil : akeys ([] : List (α × β)) = [] := rfl

theorem akeys_cons (k2 : α) (w : β) (l : List (α × β)) :
    akeys ((k2, w) :: l) = k2 :: akeys l := rfl

theorem alookup_aset_of_ne {j k : α} (h : j ≠ k) (v : β) (l : List (α × β)) :
    alookup j (aset k v l) = alookup j l := by
  have hkj : ¬ k = j := fun hh => h hh.symm
  induction l with
  | nil => simp [aset, alookup, hkj]
  | cons p l ih =>
    obtain ⟨k2, w⟩ := p
    by_cases hk : k2 = k
    · subst hk
      simp [aset, alookup, hkj]
    · simp [aset, alookup, hk, ih]

theorem alookup_aerase_of_ne {j k : α} (h : j ≠ k) (l : List (α × β)) :
    alookup j (aerase k l) = alookup j l := by
  have hkj : ¬ k = j := fun hh => h hh.symm
  induction l with
  | nil => simp [aerase]
  | cons p l ih =>
    obtain ⟨k2, w⟩ := p
    by_cases hk : k2 = k
    · subst hk
      simp [aerase, alookup, hkj]
    · simp [aerase, alookup, hk, ih]

theorem alookup_aerase_none {j k : α} {l : List (α × β)}
    (h : alookup j l = none) : alookup j (aerase k l) = none := by
  induction l with
  | nil => simpa [aerase] using h
  | cons p l ih =>
    obtain ⟨k2, w⟩ := p
    by_cases hj : k2 = j
    · simp [alookup, hj] at h
    · by_cases hk : k2 = k
      · simp [alookup, hj] at h
        simp [aerase, hk, h]
      · simp [alookup, hj] at h
        simp [aerase, alookup, hk, hj, ih h]

theorem alookup_aset_none {j k : α} {l : List (α × β)} (hne : j ≠ k) {v : β}
    (h : alookup j l = none) : alookup j (aset k v l) = none := by
  rw [alookup_aset_of_ne hne]; exact h

theorem aerase_of_lookup_none {k : α} {l : List (α × β)}
    (h : alookup k l = none) : aerase k l = l := by
  induction l with
  | nil => simp [aerase]
  | cons p l ih =>
    obtain ⟨k2, w⟩ := p
    by_cases hk : k2 = k
    · simp [alookup, hk] at h
    · simp [alookup, hk] at h
      simp [aerase, hk, ih h]

theorem length_aset_some {k : α} {l : List (α × β)} {w : β}
    (h : alookup k l = some w) (v : β) : (aset k v l).length = l.length := by
  induction l with
  | nil => simp [alookup] at h
  | cons p l ih =>
    obtain ⟨k2, w2⟩ := p
    by_cases hk : k2 = k
    · simp [aset, hk]
    · simp [alookup, hk] at h
      simp [aset, hk, ih h]

theorem length_aset_none {k : α} {l : List (α × β)}
    (h : alookup k l = none) (v : β) : (aset k v l).length = l.length + 1 := by
  induction l with
  | nil => simp [aset]
  | cons p l ih =>
    obtain ⟨k2, w2⟩ := p
    by_cases hk : k2 = k
    · simp [alookup, hk] at h
    · simp [alookup, hk] at h
      simp [aset, hk, ih h]

theorem length_aerase_some {k : α} {l : List (α × β)} {w : β}
    (h : alookup k l = some w) : l.length = (aerase k l).length + 1 := by
  induction l with
  | nil => simp [alookup] at h
  | cons p l ih =>
    obtain ⟨k2, w2⟩ := p
    by_cases hk : k2 = k
    · simp [aerase, hk]
    · simp [alookup, hk] at h
      simp [aerase, hk, ih h]

theorem mem_aset {p : α × β} {k : α} {v : β} {l : List (α × β)}
    (h : p ∈ aset k v l) : p ∈ l ∨ p = (k, v) := by
  induction l with
  | nil => simpa [aset] using h
  | cons q l ih =>
    obtain ⟨k2, w2⟩ := q
    by_cases hk : k2 = k
    · subst hk
      simp [aset] at h
      rcases h with h | h
      · right; simpa using h
      · left; simp [h]
    · simp [aset, hk] at h
      rcases h with h | h
      · left; simp [h]
      · rcases ih h with h2 | h2
        · left; simp [h2]
        · right; exact h2

theorem mem_of_mem_aerase {p : α × β} {k : α} {l : List (α × β)}
    (h : p ∈ aerase k l) : p ∈ l := by
  induction l with
  | nil => simpa [aerase] using h
  | cons q l ih =>
    obtain ⟨k2, w2⟩ := q
    by_cases hk : k2 = k
    · simp [aerase, hk] at h
      simp [h]
    · simp [aerase, hk] at h
      rcases h with h | h
      · simp [h]
      · simp [ih h]

theorem alookup_mem {k : α} {l : List (α × β)} {v : β}
    (h : alookup k l = some v) : (k, v) ∈ l := by
  induction l with
  | nil => simp [alookup] at h
  | cons p l ih =>
    obtain ⟨k2, w⟩ := p
    by_cases hk : k2 = k
    · subst hk
      simp [alookup] at h
      simp [h]
    · simp [alookup, hk] at h
      simp [ih h]

theorem alookup_eq_none_iff {k : α} {l : List (α × β)} :
    alookup k l = none ↔ k ∉ akeys l := by
  induction l with
  | nil => simp [alookup, akeys]
  | cons p l ih =>
    obtain ⟨k2, w⟩ := p
    by_cases hk : k2 = k
    · subst hk
      simp [alookup, akeys_cons]
    · have h2 : ¬ k = k2 := fun hh => hk hh.symm
      simp [alookup, akeys_cons, hk, h2, ih]

theorem akeys_aset_some {k : α} {l : List (α × β)} {w : β}
    (h : alookup k l = some w) (v : β) : akeys (aset k v l) = akeys l := by
  induction l with
  | nil => simp [alookup] at h
  | cons p l ih =>
    obtain ⟨k2, w2⟩ := p
    by_cases hk : k2 = k
    · simp [aset, akeys_cons, hk]
    · simp [alookup, hk] at h
      simp [aset, akeys_cons, hk, ih h]

theorem akeys_aset_none {k : α} {l : List (α × β)}
    (h : alookup k l = none) (v : β) : akeys (aset k v l) = akeys l ++ [k] := by
  induction l with
  | nil => simp [aset, akeys]
  | cons p l ih =>
    obtain ⟨k2, w2⟩ := p
    by_cases hk : k2 = k
    · simp [alookup, hk] at h
    · simp [alookup, hk] at h
      simp [aset, akeys_cons, hk, ih h]

theorem asum_nil {M : Type} [AddCommMonoid M] (f : β → M) :
    asum f ([] : List (α × β)) = 0 := by simp [asum]

theorem asum_cons {M : Type} [AddCommMonoid M] (f : β → M) (k : α) (w : β)
    (l : List (α × β)) : asum f ((k, w) :: l) = f w + asum f l := by
  simp [asum]

theorem asum_aset_some {M : Type} [AddCommMonoid M] (f : β → M) {k : α}
    {l : List (α × β)} {w : β} (h : alookup k l = some w) (v : β) :
    asum f (aset k v l) + f w = asum f l + f v := by
  induction l with
  | nil => simp [alookup] at h
  | cons p l ih =>
    obtain ⟨k2, w2⟩ := p
    by_cases hk : k2 = k
    · simp [alookup, hk] at h
      subst h
      simp [aset, hk, asum_cons]
      abel
    · simp [alookup, hk] at h
      have hih := ih h
      simp only [aset, hk, if_false, ite_false, asum_cons, if_neg]
      rw [add_assoc, hih, ← add_assoc]

theorem asum_aset_none {M : Type} [AddCommMonoid M] (f : β → M) {k : α}
    {l : List (α × β)} (h : alookup k l = none) (v : β) :
    asum f (aset k v l) = asum f l + f v := by
  induction l with
  | nil => simp [aset, asum]
  | cons p l ih =>
    obtain ⟨k2, w2⟩ := p
    by_cases hk : k2 = k
    · simp [alookup, hk] at h
    · simp [alookup, hk] at h
      simp only [aset, hk, ite_false, if_neg, asum_cons, if_false]
      rw [ih h, add_assoc]

theorem asum_aerase_some {M : Type} [AddCommMonoid M] (f : β → M) {k : α}
    {l : List (α × β)} {w : β} (h : alookup k l = some w) :
    asum f (aerase k l) + f w = asum f l := by
  induction l with
  | nil => simp [alookup] at h
  | cons p l ih =>
    obtain ⟨k2, w2⟩ := p
    by_cases hk : k2 = k
    · simp [alookup, hk] at h
      subst h
      simp [aerase, hk, asum_cons]
      abel
    · simp [alookup, hk] at h
      have hih := ih h
      simp only [aerase, hk, ite_false, if_neg, asum_cons, if_false]
      rw [add_assoc, hih]

end AssocLemmas

/-! ### Lemmas about the insertion sort model -/

section SortLemmas

variable {α : Type}

theorem perm_orderedInsertB (le : α → α → Bool) (x : α) (l : List α) :
    (orderedInsertB le x l).Perm (x :: l) := by
  induction l with
  | nil => simp [orderedInsertB]
  | cons y l ih =>
    cases h : le x y with
    | true => simp [orderedInsertB, h]
    | false =>
      have step : (y :: orderedInsertB le x l).Perm (y :: x :: l) := ih.cons y
      simpa [orderedInsertB, h] using step.trans (List.Perm.swap x y l)

theorem perm_insertionSortB (le : α → α → Bool) (l : List α) :
    (insertionSortB le l).Perm l := by
  induction l with
  | nil => simp [insertionSortB]
  | cons x l ih =>
    exact (perm_orderedInsertB le x (insertionSortB le l)).trans (ih.cons x)

theorem pairwise_orderedInsertB {R : α → α → Prop} {le : α → α → Bool}
    (h1 : ∀ a b, le a b = true → R a b) (h2 : ∀ a b, le a b = false → R b a)
    (htr : ∀ a b c, R a b → R b c → R a c) (x : α) {l : List α}
    (hl : l.Pairwise R) : (orderedInsertB le x l).Pairwise R := by
  induction l with
  | nil => simp [orderedInsertB]
  | cons y l ih =>
    rcases List.pairwise_cons.mp hl with ⟨hy, hl2⟩
    cases h : le x y with
    | true =>
      have hxy : R x y := h1 _ _ h
      have hcons : ((x :: y :: l) : List α).Pairwise R := by
        refine List.pairwise_cons.mpr ⟨?_, hl⟩
        intro z hz
        rcases List.mem_cons.mp hz with hz | hz
        · exact hz ▸ hxy
        · exact htr _ _ _ hxy (hy z hz)
      simpa [orderedInsertB, h] using hcons
    | false =>
      have hyx : R y x := h2 _ _ h
      have hcons : (y :: orderedInsertB le x l).Pairwise R := by
        refine List.pairwise_cons.mpr ⟨?_, ih hl2⟩
        intro z hz
        have hz3 : z ∈ x :: l := (perm_orderedInsertB le x l).mem_iff.mp hz
        rcases List.mem_cons.mp hz3 with hz2 | hz2
        · exact hz2 ▸ hyx
        · exact hy z hz2
      simpa [orderedInsertB, h] using hcons

theorem pairwise_insertionSortB {R : α → α → Prop} {le : α → α → Bool}
    (h1 : ∀ a b, le a b = true → R a b) (h2 : ∀ a b, le a b = false → R b a)
    (htr : ∀ a b c, R a b → R b c → R a c) (l : List α) :
    (insertionSortB le l).Pairwise R := by
  induction l with
  | nil => simp [insertionSortB]
  | cons x l ih => exact pairwise_orderedInsertB h1 h2 htr x ih

end SortLemmas

/-! ### Parser lemmas -/

section ParserLemmas

theorem endNeStart : ¬ (commitEndLine = commitStartLine) := by decide

theorem emptyNeStart : ¬ ("" = commitStartLine) := by decide

theorem emptyNeEnd : ¬ ("" = commitEndLine) := by decide

theorem parseStep_isSome (s : ParseState) (line : String) :
    (parseStep s line).current.isSome
      = (s.current.isSome || decide (line = commitStartLine)) := by
  by_cases h1 : line = commitStartLine
  · cases hc : s.current <;> simp [parseStep, h1, hc]
  · by_cases h2 : line = commitEndLine
    · simp [parseStep, h1, h2, endNeStart]
    · cases hc : s.current with
      | none => simp [parseStep, h1, h2, hc]
      | some c =>
        by_cases h4 : line = ""
        · cases h3 : s.inNumstat <;> simp [parseStep, h1, h2, hc, h3, h4, emptyNeStart, emptyNeEnd]
        · cases h3 : s.inNumstat <;>
            cases hpn : parseNumstat line <;>
            simp [parseStep, h1, h2, hc, h3, h4, hpn]

theorem foldl_parseStep_isSome (lines : List String) (s : ParseState) :
    ((lines.foldl parseStep s).current).isSome
      = (s.current.isSome || lines.any (fun l => decide (l = commitStartLine))) := by
  induction lines generalizing s with
  | nil => simp
  | cons l lines ih =>
    simp only [List.foldl_cons, List.any_cons]
    rw [ih, parseStep_isSome]
    cases hb : s.current.isSome <;> simp

theorem parseStep_commitCount_le (s : ParseState) (line : String) :
    s.commitCount ≤ (parseStep s line).commitCount := by
  by_cases h1 : line = commitStartLine
  · cases hc : s.current <;> simp [parseStep, h1, hc]
  · by_cases h2 : line = commitEndLine
    · simp [parseStep, h1, h2, endNeStart]
    · cases hc : s.current with
      | none => simp [parseStep, h1, h2, hc]
      | some c =>
        by_cases h4 : line = ""
        · cases h3 : s.inNumstat <;> simp [parseStep, h1, h2, hc, h3, h4, emptyNeStart, emptyNeEnd]
        · cases h3 : s.inNumstat <;>
            cases hpn : parseNumstat line <;>
            simp [parseStep, h1, h2, hc, h3, h4, hpn]

/-- Loop invariant of the Parse scanner: every progress event emitted
so far is a non-terminal event whose count is bounded by the running
commit count, and the counts are monotone. -/
def ScanInv (s : ParseState) : Prop :=
  (∀ e ∈ s.progress, e.done = false ∧ e.commitsParsed ≤ s.commitCount) ∧
    progMono s.progress

theorem parseStep_scanInv {s : ParseState} (h : ScanInv s) (line : String) :
    ScanInv (parseStep s line) := by
  obtain ⟨hall, hmono⟩ := h
  by_cases h1 : line = commitStartLine
  · cases hc : s.current with
    | none =>
      refine ⟨?_, ?_⟩
      · intro e he
        have he2 : e ∈ s.progress := by simpa [parseStep, h1, hc] using he
        have hcc : (parseStep s line).commitCount = s.commitCount := by
          simp [parseStep, h1, hc]
        rw [hcc]
        exact hall e he2
      · have hp : (parseStep s line).progress = s.progress := by simp [parseStep, h1, hc]
        rw [show progMono (parseStep s line).progress = progMono s.progress from by rw [hp]]
        exact hmono
    | some c =>
      constructor
      · intro e he
        simp only [parseStep, h1, hc, if_pos, List.mem_append, List.mem_singleton] at he ⊢
        rcases he with he | he
        · exact ⟨(hall e he).1, le_trans (hall e he).2 (Nat.le_succ _)⟩
        · subst he; exact ⟨rfl, le_refl _⟩
      · simp only [parseStep, h1, hc, if_pos, progMono] at hmono ⊢
        refine List.pairwise_append.mpr ⟨hmono, List.pairwise_singleton _ _, ?_⟩
        intro a ha b hb
        simp only [List.mem_singleton] at hb
        subst hb
        exact le_trans (hall a ha).2 (Nat.le_succ _)
  · have keep : (parseStep s line).progress = s.progress ∧
        s.commitCount ≤ (parseStep s line).commitCount := by
      by_cases h2 : line = commitEndLine
      · simp [parseStep, h1, h2, endNeStart]
      · cases hc : s.current with
        | none => simp [parseStep, h1, h2, hc]
        | some c =>
          by_cases h4 : line = ""
          · cases h3 : s.inNumstat <;> simp [parseStep, h1, h2, hc, h3, h4, emptyNeStart, emptyNeEnd]
          · cases h3 : s.inNumstat <;>
              cases hpn : parseNumstat line <;>
              simp [parseStep, h1, h2, hc, h3, h4, hpn]
    refine ⟨?_, ?_⟩
    · intro e he
      rw [keep.1] at he
      exact ⟨(hall e he).1, le_trans (hall e he).2 keep.2⟩
    · rw [show progMono (parseStep s line).progress = progMono s.progress from by rw [keep.1]]
      exact hmono

theorem foldl_parseStep_scanInv (lines : List String) {s : ParseState}
    (h : ScanInv s) : ScanInv (lines.foldl parseStep s) := by
  induction lines generalizing s with
  | nil => simpa using h
  | cons l lines ih => exact ih (parseStep_scanInv h l)

theorem countP_done_zero {ps : List ScanProgress}
    (h : ∀ e ∈ ps, e.done = false) : ps.countP (fun e => e.done) = 0 := by
  refine List.countP_eq_zero.mpr ?_
  intro e he
  simp [h e he]

end ParserLemmas

/-! ### Claim C2 -/

/-- C2: the progress counts of a parse never decrease, but the claim of
exactly one terminal done event fails on every stream containing at
least one record: the loop of Parse emits a done event for the pending
final commit and then unconditionally emits a second done event.  On the
complete single-record stream demoOneRecord the parse emits two events
with done set, not one. -/
theorem c2_counterexample :
    ¬ ((parseLines demoOneRecord).progress.countP (fun e => e.done) = 1) := by decide

/-- C2 amended: the commits-parsed counts of the progress stream are
monotonically non-decreasing, and the stream contains exactly two
terminal done events when the input holds at least one start sentinel
(both emitted at end of input, with equal counts) and exactly one when
it holds none. -/
theorem c2_progress_monotone_done_events (lines : List String) :
    progMono (parseLines lines).progress ∧
    (parseLines lines).progress.countP (fun e => e.done) =
      (if commitStartLine ∈ lines then 2 else 1) := by
  have hinv : ScanInv (lines.foldl parseStep initParseState) :=
    foldl_parseStep_scanInv lines (by constructor <;> simp [initParseState, progMono])
  obtain ⟨hall, hmono⟩ := hinv
  have hsome : ((lines.foldl parseStep initParseState).current).isSome
      = lines.any (fun l => decide (l = commitStartLine)) := by
    rw [foldl_parseStep_isSome]
    simp [initParseState]
  have hmem : (lines.any (fun l => decide (l = commitStartLine)) = true)
      ↔ commitStartLine ∈ lines := by
    constructor
    · intro hany
      rcases List.any_eq_true.mp hany with ⟨x, hx, hdec⟩
      have hx2 : x = commitStartLine := of_decide_eq_true hdec
      rwa [hx2] at hx
    · intro hmem2
      exact List.any_eq_true.mpr ⟨commitStartLine, hmem2, by simp⟩
  set t := lines.foldl parseStep initParseState with ht
  cases hc : t.current with
  | some c =>
    have hstart : commitStartLine ∈ lines := by
      rw [← hmem, ← hsome, hc]
      rfl
    constructor
    · simp only [parseLines, parseFinish, ← ht, hc, progMono]
      refine List.pairwise_append.mpr ⟨hmono, ?_, ?_⟩
      · exact List.pairwise_cons.mpr ⟨by intro b hb; simp at hb; simp [hb], by simp⟩
      · intro a ha b hb
        have hle := (hall a ha).2
        have : b.commitsParsed = t.commitCount + 1 := by
          rcases List.mem_cons.mp hb with h | h
          · simp [h]
          · simp at h; simp [h]
        rw [this]
        exact le_trans hle (Nat.le_succ _)
    · simp only [parseLines, parseFinish, ← ht, hc]
      rw [List.countP_append, countP_done_zero (fun e he => (hall e he).1)]
      simp [hstart, List.countP_cons]
  | none =>
    have hstart : commitStartLine ∉ lines := by
      intro hmemb
      have := hmem.mpr hmemb
      rw [← hsome] at this
      rw [hc] at this
      simp at this
    constructor
    · simp only [parseLines, parseFinish, ← ht, hc, progMono]
      refine List.pairwise_append.mpr ⟨hmono, List.pairwise_singleton _ _, ?_⟩
      intro a ha b hb
      simp only [List.mem_singleton] at hb
      subst hb
      exact (hall a ha).2
    · simp only [parseLines, parseFinish, ← ht, hc]
      rw [List.countP_append, countP_done_zero (fun e he => (hall e he).1)]
      simp [hstart]

/-! ### Claim C3 -/

/-- C3: on the stream demoTruncated, cut inside the header of its
second record before any end sentinel, Parse still emits two commits:
the pending record is emitted unconditionally at end of input, so a
truncated stream does not yield one fewer commit, and the emitted final
commit is half-populated (its short hash is still empty). -/
theorem c3_counterexample :
    ¬ ((parseLines demoTruncated).commits.length = 1 ∧
        ∀ c ∈ (parseLines demoTruncated).commits, c.shortHash ≠ "") := by decide

theorem parseStep_commits_len (s : ParseState) (line : String) :
    (parseStep s line).commits.length
        + (if (parseStep s line).current.isSome then 1 else 0)
      = s.commits.length + (if s.current.isSome then 1 else 0)
        + (if line = commitStartLine then 1 else 0) := by
  by_cases h1 : line = commitStartLine
  · cases hc : s.current <;> simp [parseStep, h1, hc]
  · by_cases h2 : line = commitEndLine
    · simp [parseStep, h1, h2, endNeStart]
    · cases hc : s.current with
      | none => simp [parseStep, h1, h2, hc]
      | some c =>
        by_cases h4 : line = ""
        · cases h3 : s.inNumstat <;> simp [parseStep, h1, h2, hc, h3, h4, emptyNeStart, emptyNeEnd]
        · cases h3 : s.inNumstat <;>
            cases hpn : parseNumstat line <;>
            simp [parseStep, h1, h2, hc, h3, h4, hpn]

theorem foldl_parseStep_commits_len (lines : List String) (s : ParseState) :
    (lines.foldl parseStep s).commits.length
        + (if (lines.foldl parseStep s).current.isSome then 1 else 0)
      = s.commits.length + (if s.current.isSome then 1 else 0)
        + lines.countP (fun l => decide (l = commitStartLine)) := by
  induction lines generalizing s with
  | nil => simp
  | cons l lines ih =>
    simp only [List.foldl_cons, List.countP_cons]
    rw [ih, parseStep_commits_len]
    by_cases h1 : l = commitStartLine <;> simp [h1] <;> omega

/-- C3 amended: the number of commits emitted by a parse equals the
number of start sentinels of the input, whether or not the last record
is complete: each start sentinel flushes the previous pending record
and the pending record is always flushed at end of input, so a stream
truncated before the end sentinel yields the same number of commits,
the last one only partially populated. -/
theorem c3_commit_count_eq_start_sentinels (lines : List String) :
    (parseLines lines).commits.length
      = lines.countP (fun l => decide (l = commitStartLine)) := by
  have h := foldl_parseStep_commits_len lines initParseState
  cases hc : (lines.foldl parseStep initParseState).current with
  | some c =>
    simp only [hc] at h
    simp only [parseLines, parseFinish, hc]
    simp [initParseState] at h ⊢
    omega
  | none =>
    simp only [hc] at h
    simp only [parseLines, parseFinish, hc]
    simp only [initParseState, List.length_nil, Option.isSome_none] at h
    simpa [initParseState] using h

/-! ### Projection lemmas for ProcessCommit -/

section ProcessCommitLemmas

variable (tz : Int) (r : Repository) (c : Commit)

theorem authors_processMergeCommit : (processMergeCommit tz r c).authors = r.authors := rfl

theorem fileStats_processMergeCommit : (processMergeCommit tz r c).fileStats = r.fileStats := rfl

theorem dirStats_processMergeCommit : (processMergeCommit tz r c).dirStats = r.dirStats := rfl

theorem totalAuthors_processMergeCommit :
    (processMergeCommit tz r c).totalAuthors = r.totalAuthors := rfl

theorem bumpTotals_authors : (bumpTotals tz r c).authors = r.authors := by
  simp [bumpTotals, apply_ite Repository.authors, authors_processMergeCommit]

theorem bumpTotals_fileStats : (bumpTotals tz r c).fileStats = r.fileStats := by
  simp [bumpTotals, apply_ite Repository.fileStats, apply_ite Repository.authors,
    fileStats_processMergeCommit, authors_processMergeCommit]

theorem bumpTotals_dirStats : (bumpTotals tz r c).dirStats = r.dirStats := by
  simp [bumpTotals, apply_ite Repository.dirStats, apply_ite Repository.authors,
    dirStats_processMergeCommit, authors_processMergeCommit]

theorem bumpTotals_totalAuthors :
    (bumpTotals tz r c).totalAuthors =
      (if alookup c.author.email r.authors = none then r.totalAuthors + 1
       else r.totalAuthors) := by
  simp [bumpTotals, apply_ite Repository.totalAuthors, apply_ite Repository.authors,
    totalAuthors_processMergeCommit, authors_processMergeCommit]

theorem processCommit_fileStats :
    (processCommit tz r c).fileStats
      = (c.fileChanges.foldl (applyFileChange c.author) (preAcc tz r c)).fileStats := rfl

theorem processCommit_dirStats :
    (processCommit tz r c).dirStats
      = (c.fileChanges.foldl (applyFileChange c.author) (preAcc tz r c)).dirStats := rfl

theorem processCommit_authors :
    (processCommit tz r c).authors
      = aset c.author.email
          (c.fileChanges.foldl (applyFileChange c.author) (preAcc tz r c)).author
          r.authors := by
  rw [show (processCommit tz r c).authors
      = aset c.author.email
          (c.fileChanges.foldl (applyFileChange c.author) (preAcc tz r c)).author
          (bumpTotals tz r c).authors from rfl]
  rw [bumpTotals_authors]

theorem processCommit_totalAuthors :
    (processCommit tz r c).totalAuthors =
      (if alookup c.author.email r.authors = none then r.totalAuthors + 1
       else r.totalAuthors) := by
  rw [show (processCommit tz r c).totalAuthors = (bumpTotals tz r c).totalAuthors from rfl]
  exact bumpTotals_totalAuthors tz r c

theorem preAcc_fileStats : (preAcc tz r c).fileStats = r.fileStats := by
  rw [show (preAcc tz r c).fileStats = (bumpTotals tz r c).fileStats from rfl]
  exact bumpTotals_fileStats tz r c

theorem preAcc_dirStats : (preAcc tz r c).dirStats = r.dirStats := by
  rw [show (preAcc tz r c).dirStats = (bumpTotals tz r c).dirStats from rfl]
  exact bumpTotals_dirStats tz r c

end ProcessCommitLemmas

/-! ### Claim C4 -/

section TouchLemmas

theorem fileTouch_updateFileStats (au : Author) (fc : FileChange)
    (fs : List (String × FileStats)) (q : String) :
    fileTouch (updateFileStats au fc fs) q
      = fileTouch fs q + (if decide (fc.filePath = q) then 1 else 0) := by
  by_cases hq : fc.filePath = q
  · subst hq
    cases hf : alookup fc.filePath fs with
    | none => simp [updateFileStats, fileTouch, hf, alookup_aset_self, newFileStats]
    | some f => simp [updateFileStats, fileTouch, hf, alookup_aset_self]
  · have hset := @alookup_aset_of_ne String FileStats _ q fc.filePath
      (fun hh => hq hh.symm)
    simp [updateFileStats, fileTouch, hq, hset]

theorem touch_applyFileChange (au : Author) (acc : FoldAcc) (fc : FileChange) (q : String) :
    fileTouch (applyFileChange au acc fc).fileStats q
      = fileTouch acc.fileStats q
        + (if !fc.isBinary && decide (fc.filePath = q) then 1 else 0) := by
  cases hb : fc.isBinary with
  | true => simp [applyFileChange, hb]
  | false => simp [applyFileChange, hb, fileTouch_updateFileStats]

theorem touch_foldl_applyFileChange (au : Author) (fcs : List FileChange)
    (acc : FoldAcc) (q : String) :
    fileTouch ((fcs.foldl (applyFileChange au) acc).fileStats) q
      = fileTouch acc.fileStats q
        + fcs.countP (fun fc => !fc.isBinary && decide (fc.filePath = q)) := by
  induction fcs generalizing acc with
  | nil => simp
  | cons fc fcs ih =>
    simp only [List.foldl_cons, List.countP_cons]
    rw [ih, touch_applyFileChange]
    by_cases hcond : (!fc.isBinary && decide (fc.filePath = q)) = true <;>
      simp [hcond] <;> omega

theorem touch_processCommit (tz : Int) (r : Repository) (c : Commit) (q : String) :
    fileTouch (processCommit tz r c).fileStats q
      = fileTouch r.fileStats q
        + c.fileChanges.countP (fun fc => !fc.isBinary && decide (fc.filePath = q)) := by
  rw [processCommit_fileStats, touch_foldl_applyFileChange, preAcc_fileStats]

end TouchLemmas

/-- C4: on the two-commit list of commitJoA (a non-binary change to
main.go) and commitBin (a binary change to main.go), the main.go
accumulator exists with touch count one, while two distinct commits
affected the file; the claim that the touch count counts binary-only
commits as well is false, binary changes are skipped before any file
accumulator update. -/
theorem c4_counterexample :
    (alookup "main.go" (aggregate 0 [commitJoA, commitBin]).fileStats).isSome = true ∧
    ¬ (touchCountOf (aggregate 0 [commitJoA, commitBin]) "main.go"
        = commitsAffecting [commitJoA, commitBin] "main.go") := by decide

/-- C4 amended: in an aggregated model, the touch count recorded for
every path equals the number of non-binary change entries naming that
path across the observed commits; binary changes neither create nor
increment a file accumulator. -/
theorem c4_touch_counts_nonbinary_changes (tz : Int) (cs : List Commit) (q : String) :
    touchCountOf (aggregate tz cs) q = nonBinaryTouches cs q := by
  suffices h : ∀ r : Repository,
      fileTouch (cs.foldl (processCommit tz) r).fileStats q
        = fileTouch r.fileStats q + nonBinaryTouches cs q by
    have := h (newRepository "")
    simpa [aggregate, touchCountOf, newRepository, fileTouch, alookup] using this
  induction cs with
  | nil => intro r; simp [nonBinaryTouches]
  | cons c cs ih =>
    intro r
    simp only [List.foldl_cons]
    rw [ih, touch_processCommit]
    simp [nonBinaryTouches]
    omega

/-! ### Projection lemmas for ApplyAuthorMerges and Finalize -/

section MergeProjLemmas

variable (r : Repository) (ms : List (String × String))

theorem applyAuthorMerges_authors :
    (applyAuthorMerges r ms).authors
      = if ms = [] then r.authors
        else (ms.foldl mergeAuthorPair (r.authors, r.totalAuthors)).1 := by
  by_cases h : ms = [] <;> simp [applyAuthorMerges, h]

theorem applyAuthorMerges_totalAuthors :
    (applyAuthorMerges r ms).totalAuthors
      = if ms = [] then r.totalAuthors
        else (ms.foldl mergeAuthorPair (r.authors, r.totalAuthors)).2 := by
  by_cases h : ms = [] <;> simp [applyAuthorMerges, h]

theorem applyAuthorMerges_fileStats :
    (applyAuthorMerges r ms).fileStats
      = if ms = [] then r.fileStats
        else r.fileStats.map (fun kf =>
          (kf.1, { kf.2 with authors := ms.foldl rekeyFileAuthors kf.2.authors })) := by
  by_cases h : ms = [] <;> simp [applyAuthorMerges, h]

theorem applyAuthorMerges_dirStats :
    (applyAuthorMerges r ms).dirStats
      = if ms = [] then r.dirStats
        else r.dirStats.map (fun kd =>
          (kd.1, recomputeShares
            { kd.2 with authors := ms.foldl rekeyDirAuthors kd.2.authors })) := by
  by_cases h : ms = [] <;> simp [applyAuthorMerges, h]

theorem finalizeRepo_authors : (finalizeRepo r).authors = r.authors := rfl

theorem finalizeRepo_totalAuthors : (finalizeRepo r).totalAuthors = r.totalAuthors := rfl

theorem finalizeRepo_fileStats : (finalizeRepo r).fileStats = r.fileStats := rfl

theorem finalizeRepo_dirStats :
    (finalizeRepo r).dirStats = r.dirStats.map (fun kd => (kd.1, recomputeShares kd.2)) := rfl

end MergeProjLemmas

/-! ### Claim C10 -/

section AuthorCountLemmas

theorem mergeAuthorPair_count {st : List (String × AuthorStats) × Int}
    (h : st.2 = (st.1.length : Int)) (ap : String × String) :
    (mergeAuthorPair st ap).2 = ((mergeAuthorPair st ap).1.length : Int) := by
  by_cases hself : ap.1 = ap.2
  · simpa [mergeAuthorPair, hself] using h
  · cases hal : alookup ap.1 st.1 with
    | none =>
      cases hp : alookup ap.2 st.1 <;> simpa [mergeAuthorPair, hself, hal, hp] using h
    | some al =>
      cases hp : alookup ap.2 st.1 with
      | none => simpa [mergeAuthorPair, hself, hal, hp] using h
      | some prim =>
        simp only [mergeAuthorPair, hself, hal, hp, if_neg, ite_false]
        have h1 : alookup ap.1 (aset ap.2
            { prim with
              commits := prim.commits + al.commits
              additions := prim.additions + al.additions
              deletions := prim.deletions + al.deletions
              filesTouched := al.filesTouched.foldl (fun ft fc => abump fc.1 fc.2 ft)
                prim.filesTouched
              firstCommit := if al.firstCommit < prim.firstCommit then al.firstCommit
                else prim.firstCommit
              lastCommit := if prim.lastCommit < al.lastCommit then al.lastCommit
                else prim.lastCommit } st.1) = some al := by
          rw [alookup_aset_of_ne hself]
          exact hal
        have h2 := length_aerase_some h1
        have h3 := length_aset_some hp
        rw [h3] at h2
        simp only [h]
        omega

theorem mergeFold_count (ms : List (String × String))
    {st : List (String × AuthorStats) × Int} (h : st.2 = (st.1.length : Int)) :
    (ms.foldl mergeAuthorPair st).2 = ((ms.foldl mergeAuthorPair st).1.length : Int) := by
  induction ms generalizing st with
  | nil => simpa using h
  | cons ap ms ih => exact ih (mergeAuthorPair_count h ap)

end AuthorCountLemmas

theorem reachable_totalAuthors_len (tz : Int) (r : Repository)
    (h : Reachable tz r) : r.totalAuthors = (r.authors.length : Int) := by
  induction h with
  | fresh p => simp [newRepository]
  | @observe r0 c hr ih =>
    rw [processCommit_totalAuthors, processCommit_authors]
    cases hl : alookup c.author.email r0.authors with
    | none =>
      rw [length_aset_none hl]
      simp [hl, ih]
    | some a =>
      rw [length_aset_some hl]
      simp [hl, ih]
  | merge ms hr ih =>
    rw [applyAuthorMerges_totalAuthors, applyAuthorMerges_authors]
    by_cases hm : ms = []
    · simp [hm, ih]
    · simp only [hm, ite_false, if_neg]
      exact mergeFold_count ms ih
  | finalized hr ih =>
    rw [finalizeRepo_totalAuthors, finalizeRepo_authors]
    exact ih

/-- C10: starting from a fresh repository model, after any sequence of
commit observations, identity merges and finalizations, the stored
total-author count equals the number of entries of the author
accumulator map: ProcessCommit increments the counter exactly when it
inserts a new accumulator, and the merge loop decrements it exactly
when it deletes an alias accumulator. -/
theorem c10_total_authors_tracks_map_size (tz : Int) (r : Repository)
    (h : Reachable tz r) : r.totalAuthors = (r.authors.length : Int) :=
  reachable_totalAuthors_len tz r h

/-- C10 witness: a concrete reachable model with one observation and
one merge, at which the counter and the map size agree. -/
theorem c10_witness :
    Reachable 0 (applyAuthorMerges (processCommit 0 (newRepository "") commitJoA) demoMerges) ∧
    (applyAuthorMerges (processCommit 0 (newRepository "") commitJoA) demoMerges).totalAuthors
      = ((applyAuthorMerges (processCommit 0 (newRepository "") commitJoA)
            demoMerges).authors.length : Int) :=
  ⟨Reachable.merge demoMerges (Reachable.observe commitJoA (Reachable.fresh "")),
    c10_total_authors_tracks_map_size 0 _
      (Reachable.merge demoMerges (Reachable.observe commitJoA (Reachable.fresh "")))⟩

/-! ### Claim C8 -/

section MergeCountLemmas

theorem mergeAuthorPair_fst (a : List (String × AuthorStats)) (t t2 : Int)
    (ap : String × String) :
    (mergeAuthorPair (a, t) ap).1 = (mergeAuthorPair (a, t2) ap).1 := by
  by_cases hself : ap.1 = ap.2
  · simp [mergeAuthorPair, hself]
  · cases hal : alookup ap.1 a with
    | none => cases hp : alookup ap.2 a <;> simp [mergeAuthorPair, hself, hal, hp]
    | some al => cases hp : alookup ap.2 a <;> simp [mergeAuthorPair, hself, hal, hp]

theorem mergeAuthorPair_sum (st : List (String × AuthorStats) × Int)
    (ap : String × String) :
    sumAuthorCommits (mergeAuthorPair st ap).1 = sumAuthorCommits st.1 := by
  by_cases hself : ap.1 = ap.2
  · simp [mergeAuthorPair, hself]
  · cases hal : alookup ap.1 st.1 with
    | none => cases hp : alookup ap.2 st.1 <;> simp [mergeAuthorPair, hself, hal, hp]
    | some al =>
      cases hp : alookup ap.2 st.1 with
      | none => simp [mergeAuthorPair, hself, hal, hp]
      | some prim =>
        simp only [mergeAuthorPair, hself, hal, hp, ite_false, if_neg]
        have hset := asum_aset_some AuthorStats.commits hp
          { prim with
            commits := prim.commits + al.commits
            additions := prim.additions + al.additions
            deletions := prim.deletions + al.deletions
            filesTouched := al.filesTouched.foldl (fun ft fc => abump fc.1 fc.2 ft)
              prim.filesTouched
            firstCommit := if al.firstCommit < prim.firstCommit then al.firstCommit
              else prim.firstCommit
            lastCommit := if prim.lastCommit < al.lastCommit then al.lastCommit
              else prim.lastCommit }
        have h1 : alookup ap.1 (aset ap.2
            { prim with
              commits := prim.commits + al.commits
              additions := prim.additions + al.additions
              deletions := prim.deletions + al.deletions
              filesTouched := al.filesTouched.foldl (fun ft fc => abump fc.1 fc.2 ft)
                prim.filesTouched
              firstCommit := if al.firstCommit < prim.firstCommit then al.firstCommit
                else prim.firstCommit
              lastCommit := if prim.lastCommit < al.lastCommit then al.lastCommit
                else prim.lastCommit } st.1) = some al := by
          rw [alookup_aset_of_ne hself]
          exact hal
        have herase := asum_aerase_some AuthorStats.commits h1
        simp only [sumAuthorCommits] at hset herase ⊢
        omega

theorem mergeFold_sum (ms : List (String × String))
    (st : List (String × AuthorStats) × Int) :
    sumAuthorCommits (ms.foldl mergeAuthorPair st).1 = sumAuthorCommits st.1 := by
  induction ms generalizing st with
  | nil => simp
  | cons ap ms ih =>
    simp only [List.foldl_cons]
    rw [ih, mergeAuthorPair_sum]

theorem mergeFold_totalAuthors (ms : List (String × String))
    (st : List (String × AuthorStats) × Int) :
    (ms.foldl mergeAuthorPair st).2 = st.2 - (mergeSuccessCount st.1 ms : Int) := by
  induction ms generalizing st with
  | nil => simp [mergeSuccessCount]
  | cons ap ms ih =>
    simp only [List.foldl_cons]
    rw [ih]
    by_cases hself : ap.1 = ap.2
    · simp [mergeAuthorPair, mergeSuccessCount, hself]
    · cases hal : alookup ap.1 st.1 with
      | none =>
        cases hp : alookup ap.2 st.1 <;>
          simp [mergeAuthorPair, mergeSuccessCount, hself, hal, hp]
      | some al =>
        cases hp : alookup ap.2 st.1 with
        | none => simp [mergeAuthorPair, mergeSuccessCount, hself, hal, hp]
        | some prim =>
          have hfst : (mergeAuthorPair (st.1, 0) ap).1 = (mergeAuthorPair st ap).1 := by
            rw [show st = (st.1, st.2) from rfl]
            exact mergeAuthorPair_fst st.1 0 st.2 ap
          simp only [mergeSuccessCount, hself, hal, hp, ite_false, if_neg]
          rw [hfst]
          have hsnd : (mergeAuthorPair st ap).2 = st.2 - 1 := by
            simp [mergeAuthorPair, hself, hal, hp]
          rw [hsnd]
          push_cast
          ring

end MergeCountLemmas

/-- C8: applying the identity merge decreases the total-author count by
exactly the number of alias entries whose merge succeeded, an alias
distinct from its primary with both accumulators present when its entry
is processed, and preserves the sum of commit counters over the
remaining author accumulators: each successful fold adds the alias
commits to the primary before deleting the alias. -/
theorem c8_merge_author_count_and_commits (r : Repository)
    (ms : List (String × String)) :
    (applyAuthorMerges r ms).totalAuthors
        = r.totalAuthors - (mergeSuccessCount r.authors ms : Int) ∧
    sumAuthorCommits (applyAuthorMerges r ms).authors = sumAuthorCommits r.authors := by
  rw [applyAuthorMerges_totalAuthors, applyAuthorMerges_authors]
  by_cases hm : ms = []
  · simp [hm, mergeSuccessCount]
  · simp only [hm, ite_false, if_neg]
    exact ⟨mergeFold_totalAuthors ms (r.authors, r.totalAuthors),
      mergeFold_sum ms (r.authors, r.totalAuthors)⟩

/-! ### Claim C6 -/

section ShareLemmas

theorem recomputeShares_totalChanges (d : DirStats) :
    (recomputeShares d).totalChanges = d.totalChanges := by
  by_cases h : 0 < d.totalChanges <;> simp [recomputeShares, h]

theorem asum_changes_map_share (l : List (String × DirAuthorStats)) (T : ℚ) :
    asum DirAuthorStats.changes
        (l.map (fun ea => (ea.1, { ea.2 with share := (ea.2.changes : ℚ) / T * 100 })))
      = asum DirAuthorStats.changes l := by
  induction l with
  | nil => simp [asum]
  | cons p l ih =>
    obtain ⟨k, w⟩ := p
    simp [asum_cons, ih]

theorem recomputeShares_changesSum (d : DirStats) :
    dirChangesSum (recomputeShares d) = dirChangesSum d := by
  by_cases h : 0 < d.totalChanges
  · simp only [recomputeShares, h, ite_true, dirChangesSum]
    exact asum_changes_map_share d.authors (d.totalChanges : ℚ)
  · simp [recomputeShares, h]

theorem asum_share_formula (l : List (String × DirAuthorStats)) (T : ℚ) :
    asum DirAuthorStats.share
        (l.map (fun ea => (ea.1, { ea.2 with share := (ea.2.changes : ℚ) / T * 100 })))
      = ((asum DirAuthorStats.changes l : Nat) : ℚ) / T * 100 := by
  induction l with
  | nil => simp [asum]
  | cons p l ih =>
    obtain ⟨k, w⟩ := p
    simp only [List.map_cons, asum_cons] at ih ⊢
    rw [ih]
    push_cast
    ring

theorem dirSharesSum_recompute (d : DirStats)
    (hsum : dirChangesSum d = d.totalChanges) (hpos : 0 < d.totalChanges) :
    dirSharesSum (recomputeShares d) = 100 := by
  simp only [recomputeShares, hpos, ite_true, dirSharesSum]
  rw [asum_share_formula]
  rw [show asum DirAuthorStats.changes d.authors = dirChangesSum d from rfl, hsum]
  have hne : ((d.totalChanges : Nat) : ℚ) ≠ 0 := by
    exact_mod_cast Nat.pos_iff_ne_zero.mp hpos
  rw [div_self hne]
  norm_num

theorem asum_updateDirAuthor (au : Author) (v : Nat)
    (authors : List (String × DirAuthorStats)) :
    asum DirAuthorStats.changes (updateDirAuthor au v authors)
      = asum DirAuthorStats.changes authors + v := by
  cases hda : alookup au.email authors with
  | none =>
    simp only [updateDirAuthor, hda, Option.getD_none]
    rw [asum_aset_none DirAuthorStats.changes hda]
    simp
  | some da0 =>
    simp only [updateDirAuthor, hda, Option.getD_some]
    have hset := asum_aset_some DirAuthorStats.changes hda
      { da0 with commits := da0.commits + 1, changes := da0.changes + v }
    simp at hset ⊢
    omega

theorem dirChangesInv_updateDirStats (au : Author) (dk : String) (v : Nat)
    (dirStats : List (String × DirStats))
    (h : ∀ kd ∈ dirStats, dirChangesSum kd.2 = kd.2.totalChanges) :
    ∀ kd ∈ updateDirStats au dk v dirStats, dirChangesSum kd.2 = kd.2.totalChanges := by
  intro kd hkd
  simp only [updateDirStats] at hkd
  rcases mem_aset hkd with hmem | heq
  · exact h kd hmem
  · subst heq
    have hbase : dirChangesSum ((alookup dk dirStats).getD (newDirStats dk))
        = ((alookup dk dirStats).getD (newDirStats dk)).totalChanges := by
      cases hdl : alookup dk dirStats with
      | some d => simpa using h _ (alookup_mem hdl)
      | none => simp [newDirStats, dirChangesSum, asum]
    simp only [dirChangesSum] at hbase ⊢
    rw [asum_updateDirAuthor]
    simp
    omega

theorem dirChangesInv_applyFileChange (au : Author) (acc : FoldAcc) (fc : FileChange)
    (h : ∀ kd ∈ acc.dirStats, dirChangesSum kd.2 = kd.2.totalChanges) :
    ∀ kd ∈ (applyFileChange au acc fc).dirStats, dirChangesSum kd.2 = kd.2.totalChanges := by
  cases hb : fc.isBinary with
  | true =>
    intro kd hkd
    exact h kd (by simpa [applyFileChange, hb] using hkd)
  | false =>
    intro kd hkd
    simp only [applyFileChange, hb, Bool.false_eq_true, if_neg, ite_false] at hkd
    exact dirChangesInv_updateDirStats au (getTopDir fc.filePath)
      (fc.additions + fc.deletions) acc.dirStats h kd hkd

theorem dirChangesInv_foldFC (au : Author) (fcs : List FileChange) (acc : FoldAcc)
    (h : ∀ kd ∈ acc.dirStats, dirChangesSum kd.2 = kd.2.totalChanges) :
    ∀ kd ∈ (fcs.foldl (applyFileChange au) acc).dirStats,
      dirChangesSum kd.2 = kd.2.totalChanges := by
  induction fcs generalizing acc with
  | nil => simpa using h
  | cons fc fcs ih =>
    simp only [List.foldl_cons]
    exact ih _ (dirChangesInv_applyFileChange au acc fc h)

theorem rekeyDirAuthors_sum (authors : List (String × DirAuthorStats))
    (ap : String × String) :
    asum DirAuthorStats.changes (rekeyDirAuthors authors ap)
      = asum DirAuthorStats.changes authors := by
  by_cases hself : ap.1 = ap.2
  · simp [rekeyDirAuthors, hself]
  · cases hal : alookup ap.1 authors with
    | none => simp [rekeyDirAuthors, hself, hal]
    | some al =>
      cases hp : alookup ap.2 authors with
      | none =>
        simp only [rekeyDirAuthors, hself, hal, hp, ite_false, if_neg]
        have hset := asum_aset_none DirAuthorStats.changes hp { al with email := ap.2 }
        have h1 : alookup ap.1 (aset ap.2 { al with email := ap.2 } authors) = some al := by
          rw [alookup_aset_of_ne hself]
          exact hal
        have herase := asum_aerase_some DirAuthorStats.changes h1
        simp at hset herase ⊢
        omega
      | some prim =>
        simp only [rekeyDirAuthors, hself, hal, hp, ite_false, if_neg]
        have hset := asum_aset_some DirAuthorStats.changes hp
          { prim with commits := prim.commits + al.commits, changes := prim.changes + al.changes }
        have h1 : alookup ap.1 (aset ap.2
            { prim with commits := prim.commits + al.commits, changes := prim.changes + al.changes }
            authors) = some al := by
          rw [alookup_aset_of_ne hself]
          exact hal
        have herase := asum_aerase_some DirAuthorStats.changes h1
        simp at hset herase ⊢
        omega

theorem rekeyDirAuthors_fold_sum (ms : List (String × String))
    (authors : List (String × DirAuthorStats)) :
    asum DirAuthorStats.changes (ms.foldl rekeyDirAuthors authors)
      = asum DirAuthorStats.changes authors := by
  induction ms generalizing authors with
  | nil => simp
  | cons ap ms ih =>
    simp only [List.foldl_cons]
    rw [ih, rekeyDirAuthors_sum]

theorem dirChangesInv_recompute {d : DirStats}
    (h : dirChangesSum d = d.totalChanges) :
    dirChangesSum (recomputeShares d) = (recomputeShares d).totalChanges := by
  rw [recomputeShares_changesSum, recomputeShares_totalChanges]
  exact h

theorem dirChangesInv_rekeyed {ms : List (String × String)} {d : DirStats}
    (h : dirChangesSum d = d.totalChanges) :
    dirChangesSum { d with authors := ms.foldl rekeyDirAuthors d.authors }
      = ({ d with authors := ms.foldl rekeyDirAuthors d.authors } : DirStats).totalChanges := by
  show asum DirAuthorStats.changes (ms.foldl rekeyDirAuthors d.authors) = d.totalChanges
  rw [rekeyDirAuthors_fold_sum]
  exact h

theorem dirChangesInv_reachable {tz : Int} {r : Repository} (h : Reachable tz r) :
    ∀ kd ∈ r.dirStats, dirChangesSum kd.2 = kd.2.totalChanges := by
  induction h with
  | fresh p => simp [newRepository]
  | @observe r0 c hr ih =>
    intro kd hkd
    rw [processCommit_dirStats] at hkd
    have hpre : ∀ kd2 ∈ (preAcc tz r0 c).dirStats, dirChangesSum kd2.2 = kd2.2.totalChanges := by
      rw [preAcc_dirStats]
      exact ih
    exact dirChangesInv_foldFC c.author c.fileChanges (preAcc tz r0 c) hpre kd hkd
  | @merge r0 ms hr ih =>
    intro kd hkd
    rw [applyAuthorMerges_dirStats] at hkd
    by_cases hm : ms = []
    · rw [hm] at hkd
      simp only [ite_true, if_pos] at hkd
      exact ih kd hkd
    · simp only [hm, ite_false, if_neg, List.mem_map] at hkd
      rcases hkd with ⟨kd0, hkd0, hkdeq⟩
      subst hkdeq
      exact dirChangesInv_recompute (dirChangesInv_rekeyed (ih kd0 hkd0))
  | @finalized r0 hr ih =>
    intro kd hkd
    rw [finalizeRepo_dirStats] at hkd
    simp only [List.mem_map] at hkd
    rcases hkd with ⟨kd0, hkd0, hkdeq⟩
    subst hkdeq
    exact dirChangesInv_recompute (ih kd0 hkd0)

end ShareLemmas

/-- C6: in every reachable repository model, after Finalize, and after
the share recomputation performed by an identity merge with a nonempty
mapping (an empty mapping returns early without recomputation), the
per-author ownership shares of every directory accumulator with
nonzero total changes sum to exactly one hundred: the per-author
changed volumes always sum to the directory total, and each share is
volume over total times one hundred in exact rational arithmetic. -/
theorem c6_dir_shares_sum_100 {tz : Int} {r : Repository} (h : Reachable tz r) :
    (∀ kd ∈ (finalizeRepo r).dirStats, 0 < kd.2.totalChanges → dirSharesSum kd.2 = 100) ∧
    (∀ ms : List (String × String), ms ≠ [] →
      ∀ kd ∈ (applyAuthorMerges r ms).dirStats, 0 < kd.2.totalChanges →
        dirSharesSum kd.2 = 100) := by
  have hinv := dirChangesInv_reachable h
  constructor
  · intro kd hkd hpos
    rw [finalizeRepo_dirStats] at hkd
    simp only [List.mem_map] at hkd
    rcases hkd with ⟨kd0, hkd0, hkdeq⟩
    subst hkdeq
    rw [recomputeShares_totalChanges] at hpos
    exact dirSharesSum_recompute kd0.2 (hinv kd0 hkd0) hpos
  · intro ms hm kd hkd hpos
    rw [applyAuthorMerges_dirStats] at hkd
    simp only [hm, ite_false, if_neg, List.mem_map] at hkd
    rcases hkd with ⟨kd0, hkd0, hkdeq⟩
    subst hkdeq
    rw [recomputeShares_totalChanges] at hpos
    exact dirSharesSum_recompute _ (dirChangesInv_rekeyed (hinv kd0 hkd0)) hpos

/-- C6 witness: the finalized scenario repository and the merged
scenario repository, whose directories have positive totals and shares
summing to one hundred. -/
theorem c6_witness :
    Reachable 0 demoRepo ∧
    ((∀ kd ∈ (finalizeRepo demoRepo).dirStats, 0 < kd.2.totalChanges →
        dirSharesSum kd.2 = 100) ∧
     (∀ ms : List (String × String), ms ≠ [] →
        ∀ kd ∈ (applyAuthorMerges demoRepo ms).dirStats, 0 < kd.2.totalChanges →
          dirSharesSum kd.2 = 100)) :=
  ⟨Reachable.observe commitAnn (Reachable.observe commitJoB
      (Reachable.observe commitJoA (Reachable.fresh ""))),
   c6_dir_shares_sum_100 (Reachable.observe commitAnn (Reachable.observe commitJoB
      (Reachable.observe commitJoA (Reachable.fresh ""))))⟩

/-! ### Key-set lemmas -/

section NodupLemmas

variable {α : Type} {β : Type} [DecidableEq α]

theorem mem_akeys_aset {e k : α} {v : β} {l : List (α × β)}
    (h : e ∈ akeys (aset k v l)) : e ∈ akeys l ∨ e = k := by
  cases hl : alookup k l with
  | some w =>
    rw [akeys_aset_some hl] at h
    exact Or.inl h
  | none =>
    rw [akeys_aset_none hl] at h
    simpa using h

theorem akeys_sub_aset (e k : α) (v : β) (l : List (α × β))
    (h : e ∈ akeys l) : e ∈ akeys (aset k v l) := by
  cases hl : alookup k l with
  | some w => rw [akeys_aset_some hl]; exact h
  | none => rw [akeys_aset_none hl]; simp [h]

theorem mem_akeys_aset_self (k : α) (v : β) (l : List (α × β)) :
    k ∈ akeys (aset k v l) := by
  cases hl : alookup k l with
  | some w =>
    rw [akeys_aset_some hl]
    by_contra hmem
    have h2 := alookup_eq_none_iff.mpr hmem
    rw [hl] at h2
    exact Option.noConfusion h2
  | none => rw [akeys_aset_none hl]; simp

theorem akeys_nodup_aset {k : α} {v : β} {l : List (α × β)}
    (h : (akeys l).Nodup) : (akeys (aset k v l)).Nodup := by
  cases hl : alookup k l with
  | some w => rw [akeys_aset_some hl]; exact h
  | none =>
    rw [akeys_aset_none hl]
    have hk : k ∉ akeys l := alookup_eq_none_iff.mp hl
    simp [List.nodup_append, h, hk]

theorem akeys_aerase_sublist (k : α) (l : List (α × β)) :
    (akeys (aerase k l)).Sublist (akeys l) := by
  induction l with
  | nil => simp [aerase]
  | cons p l ih =>
    obtain ⟨k2, w⟩ := p
    by_cases hk : k2 = k
    · have he : aerase k ((k2, w) :: l) = l := by simp [aerase, hk]
      rw [he, akeys_cons]
      exact List.sublist_cons_self k2 (akeys l)
    · simp only [aerase, hk, ite_false, if_neg, akeys_cons]
      exact ih.cons₂ k2

theorem akeys_nodup_aerase {k : α} {l : List (α × β)}
    (h : (akeys l).Nodup) : (akeys (aerase k l)).Nodup :=
  (akeys_aerase_sublist k l).nodup h

theorem alookup_aerase_self_nodup {k : α} {l : List (α × β)}
    (h : (akeys l).Nodup) : alookup k (aerase k l) = none := by
  induction l with
  | nil => simp [aerase, alookup]
  | cons p l ih =>
    obtain ⟨k2, w⟩ := p
    rw [akeys_cons] at h
    rcases List.nodup_cons.mp h with ⟨hk2, hl⟩
    by_cases hk : k2 = k
    · subst hk
      simp only [aerase, ite_true, if_pos]
      exact alookup_eq_none_iff.mpr hk2
    · simp only [aerase, hk, ite_false, if_neg, alookup]
      simp [hk, ih hl]

end NodupLemmas

/-! ### Invariants of aggregation -/

section AggregateInvariants

theorem updateFileStats_inv (au : Author) (fc : FileChange)
    (fileStats : List (String × FileStats)) (S : String → Prop) (hS : S au.email)
    (hf : ∀ kf ∈ fileStats, (akeys kf.2.authors).Nodup ∧ ∀ e ∈ akeys kf.2.authors, S e) :
    ∀ kf ∈ updateFileStats au fc fileStats,
      (akeys kf.2.authors).Nodup ∧ ∀ e ∈ akeys kf.2.authors, S e := by
  intro kf hkf
  simp only [updateFileStats] at hkf
  rcases mem_aset hkf with hmem | heq
  · exact hf kf hmem
  · subst heq
    have hbase : (akeys ((alookup fc.filePath fileStats).getD
          (newFileStats fc.filePath)).authors).Nodup ∧
        ∀ e ∈ akeys ((alookup fc.filePath fileStats).getD
          (newFileStats fc.filePath)).authors, S e := by
      cases hdl : alookup fc.filePath fileStats with
      | some f => simpa using hf _ (alookup_mem hdl)
      | none => simp [newFileStats, akeys]
    constructor
    · simp only [abump]
      exact akeys_nodup_aset hbase.1
    · intro e he
      simp only [abump] at he
      rcases mem_akeys_aset he with h | h
      · exact hbase.2 e h
      · exact h ▸ hS

theorem updateDirStats_nodup (au : Author) (dk : String) (v : Nat)
    (dirStats : List (String × DirStats))
    (hd : ∀ kd ∈ dirStats, (akeys kd.2.authors).Nodup) :
    ∀ kd ∈ updateDirStats au dk v dirStats, (akeys kd.2.authors).Nodup := by
  intro kd hkd
  simp only [updateDirStats] at hkd
  rcases mem_aset hkd with hmem | heq
  · exact hd kd hmem
  · subst heq
    have hbase : (akeys ((alookup dk dirStats).getD (newDirStats dk)).authors).Nodup := by
      cases hdl : alookup dk dirStats with
      | some d => simpa using hd _ (alookup_mem hdl)
      | none => simp [newDirStats, akeys]
    simp only [updateDirAuthor]
    exact akeys_nodup_aset hbase

theorem foldFC_inv (au : Author) (fcs : List FileChange) (acc : FoldAcc)
    (S : String → Prop) (hS : S au.email)
    (hf : ∀ kf ∈ acc.fileStats, (akeys kf.2.authors).Nodup ∧ ∀ e ∈ akeys kf.2.authors, S e)
    (hd : ∀ kd ∈ acc.dirStats, (akeys kd.2.authors).Nodup) :
    (∀ kf ∈ (fcs.foldl (applyFileChange au) acc).fileStats,
        (akeys kf.2.authors).Nodup ∧ ∀ e ∈ akeys kf.2.authors, S e) ∧
    (∀ kd ∈ (fcs.foldl (applyFileChange au) acc).dirStats, (akeys kd.2.authors).Nodup) := by
  induction fcs generalizing acc with
  | nil => exact ⟨hf, hd⟩
  | cons fc fcs ih =>
    simp only [List.foldl_cons]
    cases hb : fc.isBinary with
    | true =>
      refine ih _ ?_ ?_ <;> simp only [applyFileChange, hb, ite_true] <;> assumption
    | false =>
      refine ih _ ?_ ?_
      · simp only [applyFileChange, hb, Bool.false_eq_true, ite_false, if_neg]
        exact updateFileStats_inv au fc acc.fileStats S hS hf
      · simp only [applyFileChange, hb, Bool.false_eq_true, ite_false, if_neg]
        exact updateDirStats_nodup au (getTopDir fc.filePath)
          (fc.additions + fc.deletions) acc.dirStats hd

theorem processCommit_inv (tz : Int) (r : Repository) (c : Commit)
    (h1 : (akeys r.authors).Nodup)
    (hf : ∀ kf ∈ r.fileStats, (akeys kf.2.authors).Nodup ∧
        ∀ e ∈ akeys kf.2.authors, e ∈ akeys r.authors)
    (hd : ∀ kd ∈ r.dirStats, (akeys kd.2.authors).Nodup) :
    (akeys (processCommit tz r c).authors).Nodup ∧
    (∀ kf ∈ (processCommit tz r c).fileStats, (akeys kf.2.authors).Nodup ∧
        ∀ e ∈ akeys kf.2.authors, e ∈ akeys (processCommit tz r c).authors) ∧
    (∀ kd ∈ (processCommit tz r c).dirStats, (akeys kd.2.authors).Nodup) := by
  have hfold := foldFC_inv c.author c.fileChanges (preAcc tz r c)
    (fun e => e ∈ akeys r.authors ∨ e = c.author.email) (Or.inr rfl)
    (by
      rw [preAcc_fileStats]
      intro kf hkf
      exact ⟨(hf kf hkf).1, fun e he => Or.inl ((hf kf hkf).2 e he)⟩)
    (by rw [preAcc_dirStats]; exact hd)
  refine ⟨?_, ?_, ?_⟩
  · rw [processCommit_authors]
    exact akeys_nodup_aset h1
  · intro kf hkf
    rw [processCommit_fileStats] at hkf
    refine ⟨(hfold.1 kf hkf).1, ?_⟩
    intro e he
    rw [processCommit_authors]
    rcases (hfold.1 kf hkf).2 e he with h | h
    · exact akeys_sub_aset e _ _ _ h
    · exact h ▸ mem_akeys_aset_self _ _ _
  · intro kd hkd
    rw [processCommit_dirStats] at hkd
    exact hfold.2 kd hkd

theorem aggregate_inv_gen (tz : Int) (cs : List Commit) (r : Repository)
    (h1 : (akeys r.authors).Nodup)
    (hf : ∀ kf ∈ r.fileStats, (akeys kf.2.authors).Nodup ∧
        ∀ e ∈ akeys kf.2.authors, e ∈ akeys r.authors)
    (hd : ∀ kd ∈ r.dirStats, (akeys kd.2.authors).Nodup) :
    (akeys (cs.foldl (processCommit tz) r).authors).Nodup ∧
    (∀ kf ∈ (cs.foldl (processCommit tz) r).fileStats, (akeys kf.2.authors).Nodup ∧
        ∀ e ∈ akeys kf.2.authors, e ∈ akeys (cs.foldl (processCommit tz) r).authors) ∧
    (∀ kd ∈ (cs.foldl (processCommit tz) r).dirStats, (akeys kd.2.authors).Nodup) := by
  induction cs generalizing r with
  | nil => exact ⟨h1, hf, hd⟩
  | cons c cs ih =>
    simp only [List.foldl_cons]
    have hc := processCommit_inv tz r c h1 hf hd
    exact ih (processCommit tz r c) hc.1 hc.2.1 hc.2.2

theorem aggregate_inv (tz : Int) (cs : List Commit) :
    (akeys (aggregate tz cs).authors).Nodup ∧
    (∀ kf ∈ (aggregate tz cs).fileStats, (akeys kf.2.authors).Nodup ∧
        ∀ e ∈ akeys kf.2.authors, e ∈ akeys (aggregate tz cs).authors) ∧
    (∀ kd ∈ (aggregate tz cs).dirStats, (akeys kd.2.authors).Nodup) := by
  have := aggregate_inv_gen tz cs (newRepository "")
  simp only [newRepository] at this
  exact this (by simp [akeys]) (by simp) (by simp)

theorem foldl_reachable (tz : Int) (cs : List Commit) (r : Repository)
    (h : Reachable tz r) : Reachable tz (cs.foldl (processCommit tz) r) := by
  induction cs generalizing r with
  | nil => exact h
  | cons c cs ih => exact ih _ (Reachable.observe c h)

theorem aggregate_reachable (tz : Int) (cs : List Commit) :
    Reachable tz (aggregate tz cs) :=
  foldl_reachable tz cs (newRepository "") (Reachable.fresh "")

end AggregateInvariants

/-! ### Claim C1 -/

section C1Lemmas

theorem rekeyFileAuthors_alias_absent {authors : List (String × Nat)} {a p : String}
    (hne : a ≠ p) (h : (akeys authors).Nodup) :
    alookup a (rekeyFileAuthors authors (a, p)) = none := by
  simp only [rekeyFileAuthors]
  rw [if_neg hne]
  cases hal : alookup a authors with
  | none => simpa [hal] using hal
  | some cnt =>
    simp only [hal]
    have hnd : (akeys (abump p cnt authors)).Nodup := by
      simp only [abump]
      exact akeys_nodup_aset h
    exact alookup_aerase_self_nodup hnd

theorem rekeyDirAuthors_alias_absent {authors : List (String × DirAuthorStats)} {a p : String}
    (hne : a ≠ p) (h : (akeys authors).Nodup) :
    alookup a (rekeyDirAuthors authors (a, p)) = none := by
  simp only [rekeyDirAuthors]
  rw [if_neg hne]
  cases hal : alookup a authors with
  | none => simpa [hal] using hal
  | some al =>
    simp only [hal]
    cases hp : alookup p authors with
    | none =>
      simp only [hp]
      exact alookup_aerase_self_nodup (akeys_nodup_aset h)
    | some prim =>
      simp only [hp]
      exact alookup_aerase_self_nodup (akeys_nodup_aset h)

theorem mergeAuthorPair_skip {authors : List (String × AuthorStats)} {total : Int}
    {a p : String} (hne : a ≠ p)
    (habs : alookup a authors = none ∨ alookup p authors = none) :
    mergeAuthorPair (authors, total) (a, p) = (authors, total) := by
  rcases habs with h | h
  · cases hp : alookup p authors <;> simp [mergeAuthorPair, hne, h, hp]
  · cases hal : alookup a authors <;> simp [mergeAuthorPair, hne, h, hal]

end C1Lemmas

/-- C1: the all-or-nothing skip is false.  On the model aggregated from
commitJoA alone, merging alias a@x.com into the absent primary
ghost@x.com skips the author accumulator fold, yet the per-file author
index is still re-keyed: the file index is not left unchanged. -/
theorem c1_counterexample :
    alookup "ghost@x.com" (aggregate 0 [commitJoA]).authors = none ∧
    ¬ ((applyAuthorMerges (aggregate 0 [commitJoA])
          [("a@x.com", "ghost@x.com")]).fileStats
        = (aggregate 0 [commitJoA]).fileStats) := by decide

/-- C1 amended: for an alias entry whose alias or primary author
accumulator is absent, only the author accumulator fold is skipped,
leaving the author map and total untouched; the per-file and
per-directory re-keying loops still run unconditionally and remove the
alias key from every file and directory author index. -/
theorem c1_skip_only_guards_author_fold (tz : Int) (cs : List Commit) (a p : String)
    (hne : a ≠ p)
    (habs : alookup a (aggregate tz cs).authors = none ∨
      alookup p (aggregate tz cs).authors = none) :
    (applyAuthorMerges (aggregate tz cs) [(a, p)]).authors = (aggregate tz cs).authors ∧
    (applyAuthorMerges (aggregate tz cs) [(a, p)]).totalAuthors
        = (aggregate tz cs).totalAuthors ∧
    (∀ kf ∈ (applyAuthorMerges (aggregate tz cs) [(a, p)]).fileStats,
        alookup a kf.2.authors = none) ∧
    (∀ kd ∈ (applyAuthorMerges (aggregate tz cs) [(a, p)]).dirStats,
        alookup a kd.2.authors = none) := by
  have hinv := aggregate_inv tz cs
  have hpair : mergeAuthorPair ((aggregate tz cs).authors, (aggregate tz cs).totalAuthors)
      (a, p) = ((aggregate tz cs).authors, (aggregate tz cs).totalAuthors) :=
    mergeAuthorPair_skip hne habs
  refine ⟨?_, ?_, ?_, ?_⟩
  · rw [applyAuthorMerges_authors]
    simp only [List.foldl_cons, List.foldl_nil, hpair]
    simp
  · rw [applyAuthorMerges_totalAuthors]
    simp only [List.foldl_cons, List.foldl_nil, hpair]
    simp
  · intro kf hkf
    rw [applyAuthorMerges_fileStats] at hkf
    simp only [List.mem_map, ite_false, if_neg, List.cons_ne_self] at hkf
    rcases hkf with ⟨kf0, hkf0, hkfeq⟩
    subst hkfeq
    simp only [List.foldl_cons, List.foldl_nil]
    exact rekeyFileAuthors_alias_absent hne (hinv.2.1 kf0 hkf0).1
  · intro kd hkd
    rw [applyAuthorMerges_dirStats] at hkd
    simp only [List.mem_map, ite_false, if_neg, List.cons_ne_self] at hkd
    rcases hkd with ⟨kd0, hkd0, hkdeq⟩
    subst hkdeq
    simp only [List.foldl_cons, List.foldl_nil]
    show alookup a (recomputeShares { kd0.2 with
        authors := rekeyDirAuthors kd0.2.authors (a, p) }).authors = none
    have hnone := rekeyDirAuthors_alias_absent hne (hinv.2.2 kd0 hkd0)
    by_cases hpos : 0 < kd0.2.totalChanges
    · simp only [recomputeShares, hpos, ite_true]
      simp only [alookup_eq_none_iff, akeys] at hnone ⊢
      simpa [List.map_map, Function.comp] using hnone
    · simp only [recomputeShares, hpos, ite_false, if_neg]
      exact hnone

/-- C1 witness: the concrete instance of the amended theorem at the
single-commit model and the alias entry with an absent primary. -/
theorem c1_witness :
    (("a@x.com" : String) ≠ "ghost@x.com" ∧
      (alookup "a@x.com" (aggregate 0 [commitJoA]).authors = none ∨
        alookup "ghost@x.com" (aggregate 0 [commitJoA]).authors = none)) ∧
    ((applyAuthorMerges (aggregate 0 [commitJoA])
          [("a@x.com", "ghost@x.com")]).authors = (aggregate 0 [commitJoA]).authors ∧
      (applyAuthorMerges (aggregate 0 [commitJoA])
          [("a@x.com", "ghost@x.com")]).totalAuthors = (aggregate 0 [commitJoA]).totalAuthors ∧
      (∀ kf ∈ (applyAuthorMerges (aggregate 0 [commitJoA])
          [("a@x.com", "ghost@x.com")]).fileStats, alookup "a@x.com" kf.2.authors = none) ∧
      (∀ kd ∈ (applyAuthorMerges (aggregate 0 [commitJoA])
          [("a@x.com", "ghost@x.com")]).dirStats, alookup "a@x.com" kd.2.authors = none)) :=
  ⟨⟨by decide, Or.inr (by decide)⟩,
    c1_skip_only_guards_author_fold 0 [commitJoA] "a@x.com" "ghost@x.com" (by decide)
      (Or.inr (by decide))⟩

/-! ### Claim C5 -/

section LeaderboardLemmas

theorem leaderLess_true_le {k : LeaderKey} {a b : AuthorStats}
    (h : leaderLess k a b = true) : leaderKeyLE k a b := by
  cases k <;>
    (simp only [leaderLess, decide_eq_true_eq] at h
     simp only [leaderKeyLE]
     exact le_of_lt h)

theorem leaderLess_false_le {k : LeaderKey} {a b : AuthorStats}
    (h : leaderLess k a b = false) : leaderKeyLE k b a := by
  cases k <;>
    (simp only [leaderLess, decide_eq_false_iff_not] at h
     simp only [leaderKeyLE]
     exact not_lt.mp h)

theorem leaderKeyLE_trans (k : LeaderKey) {a b c : AuthorStats}
    (h1 : leaderKeyLE k a b) (h2 : leaderKeyLE k b c) : leaderKeyLE k a c := by
  cases k <;>
    (simp only [leaderKeyLE] at h1 h2 ⊢
     exact le_trans h1 h2)

theorem goLeader_le_true {sortBy : String} {ascending : Bool} {a b : AuthorStats}
    (h : (!(goLeaderLess sortBy ascending b a)) = true) : leaderOrd sortBy ascending a b := by
  cases ascending with
  | true =>
    simp [goLeaderLess] at h
    simpa [leaderOrd] using leaderLess_false_le h
  | false =>
    simp [goLeaderLess] at h
    simpa [leaderOrd] using leaderLess_true_le h

theorem goLeader_le_false {sortBy : String} {ascending : Bool} {a b : AuthorStats}
    (h : (!(goLeaderLess sortBy ascending b a)) = false) : leaderOrd sortBy ascending b a := by
  cases ascending with
  | true =>
    simp [goLeaderLess] at h
    simpa [leaderOrd] using leaderLess_true_le h
  | false =>
    simp [goLeaderLess] at h
    simpa [leaderOrd] using leaderLess_false_le h

theorem leaderOrd_trans (sortBy : String) (ascending : Bool) :
    ∀ a b c : AuthorStats, leaderOrd sortBy ascending a b → leaderOrd sortBy ascending b c →
      leaderOrd sortBy ascending a c := by
  intro a b c h1 h2
  cases ascending with
  | true =>
    simp only [leaderOrd, ite_true] at h1 h2 ⊢
    exact leaderKeyLE_trans _ h1 h2
  | false =>
    simp only [leaderOrd, ite_false, if_neg] at h1 h2 ⊢
    exact leaderKeyLE_trans _ h2 h1

end LeaderboardLemmas

/-- C5: stability of tie order is false.  The Go method copies the
Authors map values in map iteration order, which is unspecified, and
sorts with the non-stable sort.Slice; on the model aggregated from
commitJoA then commitAnn (insertion order Jo, Ann, both with one
commit) the reversed iteration order is a valid map enumeration, and
the resulting leaderboard lists the tied authors as Ann, Jo instead of
their insertion order. -/
theorem c5_counterexample :
    ((((aggregate 0 [commitJoA, commitAnn]).authors.map Prod.snd).reverse).Perm
      ((aggregate 0 [commitJoA, commitAnn]).authors.map Prod.snd)) ∧
    ((aggregate 0 [commitJoA, commitAnn]).authors.map Prod.snd).map AuthorStats.commits
        = [1, 1] ∧
    ¬ (getLeaderboard (((aggregate 0 [commitJoA, commitAnn]).authors.map Prod.snd).reverse)
          "commits" true
        = (aggregate 0 [commitJoA, commitAnn]).authors.map Prod.snd) := by decide

/-- C5 amended: for every iteration order of the author accumulators,
every sort key string and either direction, the leaderboard is a
permutation of the input slice ordered according to the selected key
and direction (unrecognized keys fall back to the commits key); the
relative order of authors comparing equal under the key is unspecified,
determined by the map iteration order and the non-stable sort, not by
insertion order. -/
theorem c5_leaderboard_sorted_permutation (authorsIter : List AuthorStats)
    (sortBy : String) (ascending : Bool) :
    (getLeaderboard authorsIter sortBy ascending).Perm authorsIter ∧
    (getLeaderboard authorsIter sortBy ascending).Pairwise (leaderOrd sortBy ascending) := by
  constructor
  · exact perm_insertionSortB _ authorsIter
  · exact pairwise_insertionSortB (fun a b h => goLeader_le_true h)
      (fun a b h => goLeader_le_false h) (leaderOrd_trans sortBy ascending) authorsIter

/-! ### Claim C9 -/

section HotspotLemmas

theorem getHotspots_zero (r : Repository) :
    getHotspots r 0
      = insertionSortB (fun x y => decide (y.riskScore ≤ x.riskScore))
          (hotspotCandidates r) := by
  simp [getHotspots]

theorem mkHotspot_path (r : Repository) (f : FileStats) :
    (mkHotspot r f).path = f.path := rfl

theorem candidates_paths_gen (r : Repository) (l : List (String × FileStats)) :
    ((l.filterMap (fun kf =>
        if 2 ≤ kf.2.authors.length then some (mkHotspot r kf.2) else none)).map
        HotspotFile.path)
      = (l.filter (fun kf => 2 ≤ kf.2.authors.length)).map (fun kf => kf.2.path) := by
  induction l with
  | nil => simp
  | cons kf l ih =>
    by_cases h : 2 ≤ kf.2.authors.length <;>
      simp [List.filterMap_cons, h, ih, mkHotspot_path]

theorem mem_candidates {r : Repository} {h : HotspotFile}
    (hm : h ∈ hotspotCandidates r) :
    ∃ kf ∈ r.fileStats, 2 ≤ kf.2.authors.length ∧ h = mkHotspot r kf.2 := by
  simp only [hotspotCandidates, List.mem_filterMap] at hm
  rcases hm with ⟨kf, hkf, heq⟩
  by_cases hc : 2 ≤ kf.2.authors.length
  · rw [if_pos hc] at heq
    exact ⟨kf, hkf, hc, (Option.some_inj.mp heq).symm⟩
  · rw [if_neg hc] at heq
    exact absurd heq (by simp)

theorem foldl_max_ge (f : (String × FileStats) → Nat) (l : List (String × FileStats))
    (m : Nat) :
    m ≤ l.foldl (fun acc kf => if acc < f kf then f kf else acc) m ∧
    ∀ kf ∈ l, f kf ≤ l.foldl (fun acc kf => if acc < f kf then f kf else acc) m := by
  induction l generalizing m with
  | nil => simp
  | cons kf l ih =>
    simp only [List.foldl_cons]
    constructor
    · refine le_trans ?_ (ih (if m < f kf then f kf else m)).1
      split <;> omega
    · intro kf2 hkf2
      rcases List.mem_cons.mp hkf2 with h | h
      · subst h
        refine le_trans ?_ (ih (if m < f kf2 then f kf2 else m)).1
        split <;> omega
      · exact (ih _).2 kf2 h

theorem changes_le_denom {r : Repository} {kf : String × FileStats}
    (h : kf ∈ r.fileStats) : kf.2.totalChanges ≤ hotDenomChanges r := by
  have hmax : kf.2.totalChanges ≤ maxChangesOf r :=
    (foldl_max_ge (fun kf => kf.2.totalChanges) r.fileStats 0).2 kf h
  unfold hotDenomChanges
  by_cases h0 : maxChangesOf r = 0
  · rw [if_pos h0]
    omega
  · rw [if_neg h0]
    exact hmax

theorem touches_le_denom {r : Repository} {kf : String × FileStats}
    (h : kf ∈ r.fileStats) : kf.2.touchCount ≤ hotDenomTouches r := by
  have hmax : kf.2.touchCount ≤ maxTouchesOf r :=
    (foldl_max_ge (fun kf => kf.2.touchCount) r.fileStats 0).2 kf h
  unfold hotDenomTouches
  by_cases h0 : maxTouchesOf r = 0
  · rw [if_pos h0]
    omega
  · rw [if_neg h0]
    exact hmax

theorem hotDenomChanges_pos (r : Repository) : 0 < hotDenomChanges r := by
  unfold hotDenomChanges
  by_cases h0 : maxChangesOf r = 0
  · rw [if_pos h0]; omega
  · rw [if_neg h0]; omega

theorem hotDenomTouches_pos (r : Repository) : 0 < hotDenomTouches r := by
  unfold hotDenomTouches
  by_cases h0 : maxTouchesOf r = 0
  · rw [if_pos h0]; omega
  · rw [if_neg h0]; omega

theorem mkHotspot_risk_bounds (r : Repository) {kf : String × FileStats}
    (hmem : kf ∈ r.fileStats)
    (hAuthors : (kf.2.authors.length : Int) ≤ r.totalAuthors)
    (hTA : 1 ≤ r.totalAuthors) :
    0 ≤ (mkHotspot r kf.2).riskScore ∧ (mkHotspot r kf.2).riskScore ≤ 100 := by
  have hdc : (0:ℚ) < (hotDenomChanges r : ℚ) := by
    exact_mod_cast hotDenomChanges_pos r
  have hdt : (0:ℚ) < (hotDenomTouches r : ℚ) := by
    exact_mod_cast hotDenomTouches_pos r
  have hta : (0:ℚ) < (r.totalAuthors : ℚ) := by
    have h1 : (1:ℚ) ≤ (r.totalAuthors : ℚ) := by exact_mod_cast hTA
    linarith
  have hc0 : (0:ℚ) ≤ (kf.2.totalChanges : ℚ) / (hotDenomChanges r : ℚ) :=
    div_nonneg (by positivity) (le_of_lt hdc)
  have hc1 : (kf.2.totalChanges : ℚ) / (hotDenomChanges r : ℚ) ≤ 1 := by
    rw [div_le_one hdc]
    exact_mod_cast changes_le_denom hmem
  have ht0 : (0:ℚ) ≤ (kf.2.touchCount : ℚ) / (hotDenomTouches r : ℚ) :=
    div_nonneg (by positivity) (le_of_lt hdt)
  have ht1 : (kf.2.touchCount : ℚ) / (hotDenomTouches r : ℚ) ≤ 1 := by
    rw [div_le_one hdt]
    exact_mod_cast touches_le_denom hmem
  have ha0 : (0:ℚ) ≤ (kf.2.authors.length : ℚ) / (r.totalAuthors : ℚ) :=
    div_nonneg (by positivity) (le_of_lt hta)
  have ha1 : (kf.2.authors.length : ℚ) / (r.totalAuthors : ℚ) ≤ 1 := by
    rw [div_le_one hta]
    exact_mod_cast hAuthors
  simp only [mkHotspot]
  constructor
  · nlinarith
  · nlinarith

end HotspotLemmas

/-- C9: for every model aggregated from a commit list with at least one
author, the hotspot candidates are exactly the files with at least two
recorded distinct authors, each risk score follows the weighted formula
with defaulted denominators, lies between zero and one hundred, and the
result is sorted by descending risk score. -/
theorem c9_hotspots_correct (tz : Int) (cs : List Commit)
    (hne : (aggregate tz cs).authors ≠ []) : hotspotsOk (aggregate tz cs) := by
  obtain ⟨hA, hF, hD⟩ := aggregate_inv tz cs
  have hlen := reachable_totalAuthors_len tz _ (aggregate_reachable tz cs)
  have hTA : 1 ≤ (aggregate tz cs).totalAuthors := by
    rw [hlen]
    have h1 : 1 ≤ (aggregate tz cs).authors.length := by
      cases h : (aggregate tz cs).authors with
      | nil => exact absurd h hne
      | cons a l => simp
    exact_mod_cast h1
  have hsub : ∀ kf ∈ (aggregate tz cs).fileStats,
      (kf.2.authors.length : Int) ≤ (aggregate tz cs).totalAuthors := by
    intro kf hkf
    rw [hlen]
    have hsp := (List.subperm_of_subset (hF kf hkf).1 (hF kf hkf).2).length_le
    simp only [akeys, List.length_map] at hsp
    exact_mod_cast hsp
  unfold hotspotsOk
  refine ⟨?_, ?_, ?_, ?_⟩
  · rw [getHotspots_zero]
    have hperm := (perm_insertionSortB
      (fun x y => decide (y.riskScore ≤ x.riskScore))
      (hotspotCandidates (aggregate tz cs))).map HotspotFile.path
    rw [show (hotspotCandidates (aggregate tz cs)).map HotspotFile.path
        = ((aggregate tz cs).fileStats.filter
            (fun kf => 2 ≤ kf.2.authors.length)).map (fun kf => kf.2.path)
      from candidates_paths_gen (aggregate tz cs) (aggregate tz cs).fileStats] at hperm
    exact hperm
  · intro h hm
    rw [getHotspots_zero] at hm
    have hmc := (perm_insertionSortB _ _).mem_iff.mp hm
    rcases mem_candidates hmc with ⟨kf, hkf, hc, heq⟩
    exact ⟨kf, hkf, by rw [heq]; rfl, hc, by rw [heq]; rfl⟩
  · intro h hm
    rw [getHotspots_zero] at hm
    have hmc := (perm_insertionSortB _ _).mem_iff.mp hm
    rcases mem_candidates hmc with ⟨kf, hkf, hc, heq⟩
    rw [heq]
    exact mkHotspot_risk_bounds (aggregate tz cs) hkf (hsub kf hkf) hTA
  · rw [getHotspots_zero]
    refine pairwise_insertionSortB ?_ ?_ ?_ _
    · intro a b hab
      exact of_decide_eq_true hab
    · intro a b hab
      exact le_of_lt (not_le.mp (of_decide_eq_false hab))
    · intro a b c hab hbc
      exact le_trans hbc hab

/-- C9 witness: the two-author single-file model, whose lone candidate
file main.go carries both authors. -/
theorem c9_witness :
    (aggregate 0 [commitJoA, commitJoB]).authors ≠ [] ∧
      hotspotsOk (aggregate 0 [commitJoA, commitJoB]) :=
  ⟨by decide, c9_hotspots_correct 0 [commitJoA, commitJoB] (by decide)⟩

/-! ### Claim C7: author fold lemmas -/

section IdemAuthorLemmas

theorem mergeAuthorPair_absent {st : List (String × AuthorStats) × Int} {x : String}
    (h : alookup x st.1 = none) (ap : String × String) :
    alookup x (mergeAuthorPair st ap).1 = none := by
  by_cases hself : ap.1 = ap.2
  · simpa [mergeAuthorPair, hself] using h
  · cases hal : alookup ap.1 st.1 with
    | none =>
      cases hp : alookup ap.2 st.1 <;> simpa [mergeAuthorPair, hself, hal, hp] using h
    | some al =>
      cases hp : alookup ap.2 st.1 with
      | none => simpa [mergeAuthorPair, hself, hal, hp] using h
      | some prim =>
        simp only [mergeAuthorPair, hself, hal, hp, ite_false, if_neg]
        have hxp : x ≠ ap.2 := by
          intro heq
          rw [heq, hp] at h
          exact Option.noConfusion h
        exact alookup_aerase_none (alookup_aset_none hxp h)

theorem mergeAuthorPair_keysNodup {st : List (String × AuthorStats) × Int}
    (h : (akeys st.1).Nodup) (ap : String × String) :
    (akeys (mergeAuthorPair st ap).1).Nodup := by
  by_cases hself : ap.1 = ap.2
  · simpa [mergeAuthorPair, hself] using h
  · cases hal : alookup ap.1 st.1 with
    | none =>
      cases hp : alookup ap.2 st.1 <;> simpa [mergeAuthorPair, hself, hal, hp] using h
    | some al =>
      cases hp : alookup ap.2 st.1 with
      | none => simpa [mergeAuthorPair, hself, hal, hp] using h
      | some prim =>
        simp only [mergeAuthorPair, hself, hal, hp, ite_false, if_neg]
        exact akeys_nodup_aerase (akeys_nodup_aset h)

theorem mergeFold_absent {ms : List (String × String)}
    {st : List (String × AuthorStats) × Int} {x : String}
    (h : alookup x st.1 = none) : alookup x (ms.foldl mergeAuthorPair st).1 = none := by
  induction ms generalizing st with
  | nil => exact h
  | cons ap ms ih => exact ih (mergeAuthorPair_absent h ap)

theorem mergeFold_post (ms : List (String × String))
    (st : List (String × AuthorStats) × Int) (hnd : (akeys st.1).Nodup) :
    ∀ ap ∈ ms, ap.1 ≠ ap.2 →
      alookup ap.1 (ms.foldl mergeAuthorPair st).1 = none ∨
      alookup ap.2 (ms.foldl mergeAuthorPair st).1 = none := by
  induction ms generalizing st with
  | nil =>
    intro ap h
    exact absurd h (List.not_mem_nil ap)
  | cons bq ms ih =>
    intro ap hap hne
    simp only [List.foldl_cons]
    rcases List.mem_cons.mp hap with heq | hmem
    · subst heq
      cases hal : alookup ap.1 st.1 with
      | none =>
        exact Or.inl (mergeFold_absent (mergeAuthorPair_absent hal ap))
      | some al =>
        cases hp : alookup ap.2 st.1 with
        | none =>
          exact Or.inr (mergeFold_absent (mergeAuthorPair_absent hp ap))
        | some prim =>
          refine Or.inl (mergeFold_absent ?_)
          simp only [mergeAuthorPair, hne, hal, hp, ite_false, if_neg]
          exact alookup_aerase_self_nodup (akeys_nodup_aset hnd)
    · exact ih (mergeAuthorPair st bq) (mergeAuthorPair_keysNodup hnd bq) ap hmem hne

theorem mergeFold_id (ms : List (String × String))
    (st : List (String × AuthorStats) × Int)
    (h : ∀ ap ∈ ms, ap.1 ≠ ap.2 →
      alookup ap.1 st.1 = none ∨ alookup ap.2 st.1 = none) :
    ms.foldl mergeAuthorPair st = st := by
  induction ms with
  | nil => rfl
  | cons ap ms ih =>
    have hstep : mergeAuthorPair st ap = st := by
      by_cases hself : ap.1 = ap.2
      · simp [mergeAuthorPair, hself]
      · rcases h ap (List.mem_cons_self ap ms) hself with h1 | h1
        · cases hp : alookup ap.2 st.1 <;> simp [mergeAuthorPair, hself, h1, hp]
        · cases hal : alookup ap.1 st.1 <;> simp [mergeAuthorPair, hself, h1, hal]
    simp only [List.foldl_cons, hstep]
    exact ih (fun ap2 hm => h ap2 (List.mem_cons_of_mem _ hm))

theorem mergeFold_idem (ms : List (String × String))
    (st : List (String × AuthorStats) × Int) (hnd : (akeys st.1).Nodup) :
    ms.foldl mergeAuthorPair (ms.foldl mergeAuthorPair st) = ms.foldl mergeAuthorPair st :=
  mergeFold_id ms _ (mergeFold_post ms st hnd)

end IdemAuthorLemmas

/-! ### Claim C7: re-keying fold lemmas -/

section IdemRekeyLemmas

theorem target_ne_alias {ms : List (String × String)}
    (hkeys : (ms.map Prod.fst).Nodup) (hwf : ∀ ap ∈ ms, (ap.2, ap.2) ∈ ms)
    {a p : String} (hap : (a, p) ∈ ms) (hne : a ≠ p)
    {bq : String × String} (hbq : bq ∈ ms) : bq.2 ≠ a := by
  intro heq
  have haa : ((a, a) : String × String) ∈ ms := by
    have h2 := hwf bq hbq
    rwa [heq] at h2
  have hpair : ((a, p) : String × String) = (a, a) :=
    List.inj_on_of_nodup_map hkeys hap haa rfl
  have hpa : p = a := congrArg Prod.snd hpair
  exact hne hpa.symm

theorem rekeyFileAuthors_keysNodup {X : List (String × Nat)}
    (h : (akeys X).Nodup) (ap : String × String) :
    (akeys (rekeyFileAuthors X ap)).Nodup := by
  by_cases hself : ap.1 = ap.2
  · simpa [rekeyFileAuthors, hself] using h
  · cases hal : alookup ap.1 X with
    | none => simpa [rekeyFileAuthors, hself, hal] using h
    | some cnt =>
      simp only [rekeyFileAuthors, hself, hal, ite_false, if_neg, abump]
      exact akeys_nodup_aerase (akeys_nodup_aset h)

theorem rekeyFileAuthors_absent {X : List (String × Nat)} {x : String}
    (h : alookup x X = none) {ap : String × String} (ht : ap.2 ≠ x) :
    alookup x (rekeyFileAuthors X ap) = none := by
  by_cases hself : ap.1 = ap.2
  · simpa [rekeyFileAuthors, hself] using h
  · cases hal : alookup ap.1 X with
    | none => simpa [rekeyFileAuthors, hself, hal] using h
    | some cnt =>
      simp only [rekeyFileAuthors, hself, hal, ite_false, if_neg, abump]
      exact alookup_aerase_none (alookup_aset_none (fun hh => ht hh.symm) h)

theorem rekeyFileFold_alias_absent {ms : List (String × String)}
    (hkeys : (ms.map Prod.fst).Nodup) (hwf : ∀ ap ∈ ms, (ap.2, ap.2) ∈ ms)
    {a p : String} (hap : (a, p) ∈ ms) (hne : a ≠ p) :
    ∀ ms2 : List (String × String), (∀ bq ∈ ms2, bq ∈ ms) →
      ∀ X : List (String × Nat), (akeys X).Nodup →
      (alookup a X = none ∨ (a, p) ∈ ms2) →
      alookup a (ms2.foldl rekeyFileAuthors X) = none := by
  intro ms2
  induction ms2 with
  | nil =>
    intro hsub X hX hcase
    rcases hcase with h | h
    · exact h
    · exact absurd h (List.not_mem_nil _)
  | cons bq ms2 ih =>
    intro hsub X hX hcase
    simp only [List.foldl_cons]
    have hX2 : (akeys (rekeyFileAuthors X bq)).Nodup := rekeyFileAuthors_keysNodup hX bq
    have hsub2 : ∀ cq ∈ ms2, cq ∈ ms := fun cq hm => hsub cq (List.mem_cons_of_mem _ hm)
    rcases hcase with habs | hmem
    · refine ih hsub2 _ hX2 (Or.inl ?_)
      exact rekeyFileAuthors_absent habs
        (target_ne_alias hkeys hwf hap hne (hsub bq (List.mem_cons_self bq ms2)))
    · rcases List.mem_cons.mp hmem with heq | hmem2
      · refine ih hsub2 _ hX2 (Or.inl ?_)
        rw [← heq]
        exact rekeyFileAuthors_alias_absent hne hX
      · exact ih hsub2 _ hX2 (Or.inr hmem2)

theorem rekeyFileFold_id (ms2 : List (String × String)) (X : List (String × Nat))
    (h : ∀ ap ∈ ms2, ap.1 ≠ ap.2 → alookup ap.1 X = none) :
    ms2.foldl rekeyFileAuthors X = X := by
  induction ms2 with
  | nil => rfl
  | cons ap ms2 ih =>
    have hstep : rekeyFileAuthors X ap = X := by
      by_cases hself : ap.1 = ap.2
      · simp [rekeyFileAuthors, hself]
      · simp [rekeyFileAuthors, hself, h ap (List.mem_cons_self ap ms2) hself]
    simp only [List.foldl_cons, hstep]
    exact ih (fun ap2 hm => h ap2 (List.mem_cons_of_mem _ hm))

theorem rekeyFileFold_idem {ms : List (String × String)}
    (hkeys : (ms.map Prod.fst).Nodup) (hwf : ∀ ap ∈ ms, (ap.2, ap.2) ∈ ms)
    (X : List (String × Nat)) (hX : (akeys X).Nodup) :
    ms.foldl rekeyFileAuthors (ms.foldl rekeyFileAuthors X) = ms.foldl rekeyFileAuthors X := by
  refine rekeyFileFold_id ms _ ?_
  intro ap hap hne
  exact rekeyFileFold_alias_absent hkeys hwf hap hne ms (fun bq h => h) X hX (Or.inr hap)

theorem rekeyDirAuthors_keysNodup {X : List (String × DirAuthorStats)}
    (h : (akeys X).Nodup) (ap : String × String) :
    (akeys (rekeyDirAuthors X ap)).Nodup := by
  by_cases hself : ap.1 = ap.2
  · simpa [rekeyDirAuthors, hself] using h
  · cases hal : alookup ap.1 X with
    | none => simpa [rekeyDirAuthors, hself, hal] using h
    | some al =>
      cases hp : alookup ap.2 X with
      | none =>
        simp only [rekeyDirAuthors, hself, hal, hp, ite_false, if_neg]
        exact akeys_nodup_aerase (akeys_nodup_aset h)
      | some prim =>
        simp only [rekeyDirAuthors, hself, hal, hp, ite_false, if_neg]
        exact akeys_nodup_aerase (akeys_nodup_aset h)

theorem rekeyDirAuthors_absent {X : List (String × DirAuthorStats)} {x : String}
    (h : alookup x X = none) {ap : String × String} (ht : ap.2 ≠ x) :
    alookup x (rekeyDirAuthors X ap) = none := by
  by_cases hself : ap.1 = ap.2
  · simpa [rekeyDirAuthors, hself] using h
  · cases hal : alookup ap.1 X with
    | none => simpa [rekeyDirAuthors, hself, hal] using h
    | some al =>
      cases hp : alookup ap.2 X with
      | none =>
        simp only [rekeyDirAuthors, hself, hal, hp, ite_false, if_neg]
        exact alookup_aerase_none (alookup_aset_none (fun hh => ht hh.symm) h)
      | some prim =>
        simp only [rekeyDirAuthors, hself, hal, hp, ite_false, if_neg]
        exact alookup_aerase_none (alookup_aset_none (fun hh => ht hh.symm) h)

theorem rekeyDirFold_alias_absent {ms : List (String × String)}
    (hkeys : (ms.map Prod.fst).Nodup) (hwf : ∀ ap ∈ ms, (ap.2, ap.2) ∈ ms)
    {a p : String} (hap : (a, p) ∈ ms) (hne : a ≠ p) :
    ∀ ms2 : List (String × String), (∀ bq ∈ ms2, bq ∈ ms) →
      ∀ X : List (String × DirAuthorStats), (akeys X).Nodup →
      (alookup a X = none ∨ (a, p) ∈ ms2) →
      alookup a (ms2.foldl rekeyDirAuthors X) = none := by
  intro ms2
  induction ms2 with
  | nil =>
    intro hsub X hX hcase
    rcases hcase with h | h
    · exact h
    · exact absurd h (List.not_mem_nil _)
  | cons bq ms2 ih =>
    intro hsub X hX hcase
    simp only [List.foldl_cons]
    have hX2 : (akeys (rekeyDirAuthors X bq)).Nodup := rekeyDirAuthors_keysNodup hX bq
    have hsub2 : ∀ cq ∈ ms2, cq ∈ ms := fun cq hm => hsub cq (List.mem_cons_of_mem _ hm)
    rcases hcase with habs | hmem
    · refine ih hsub2 _ hX2 (Or.inl ?_)
      exact rekeyDirAuthors_absent habs
        (target_ne_alias hkeys hwf hap hne (hsub bq (List.mem_cons_self bq ms2)))
    · rcases List.mem_cons.mp hmem with heq | hmem2
      · refine ih hsub2 _ hX2 (Or.inl ?_)
        rw [← heq]
        exact rekeyDirAuthors_alias_absent hne hX
      · exact ih hsub2 _ hX2 (Or.inr hmem2)

theorem rekeyDirFold_id (ms2 : List (String × String))
    (X : List (String × DirAuthorStats))
    (h : ∀ ap ∈ ms2, ap.1 ≠ ap.2 → alookup ap.1 X = none) :
    ms2.foldl rekeyDirAuthors X = X := by
  induction ms2 with
  | nil => rfl
  | cons ap ms2 ih =>
    have hstep : rekeyDirAuthors X ap = X := by
      by_cases hself : ap.1 = ap.2
      · simp [rekeyDirAuthors, hself]
      · simp [rekeyDirAuthors, hself, h ap (List.mem_cons_self ap ms2) hself]
    simp only [List.foldl_cons, hstep]
    exact ih (fun ap2 hm => h ap2 (List.mem_cons_of_mem _ hm))

theorem rekeyDirFold_post {ms : List (String × String)}
    (hkeys : (ms.map Prod.fst).Nodup) (hwf : ∀ ap ∈ ms, (ap.2, ap.2) ∈ ms)
    (X : List (String × DirAuthorStats)) (hX : (akeys X).Nodup) :
    ∀ ap ∈ ms, ap.1 ≠ ap.2 → alookup ap.1 (ms.foldl rekeyDirAuthors X) = none := by
  intro ap hap hne
  exact rekeyDirFold_alias_absent hkeys hwf hap hne ms (fun bq h => h) X hX (Or.inr hap)

end IdemRekeyLemmas

/-! ### Claim C7: share recomputation lemmas and assembly -/

section IdemRecomputeLemmas

theorem akeys_map_pair {β γ : Type} (g : (String × β) → γ)
    (l : List (String × β)) :
    akeys (l.map (fun ea => (ea.1, g ea))) = akeys l := by
  induction l with
  | nil => rfl
  | cons p l ih =>
    obtain ⟨k, w⟩ := p
    simp only [List.map_cons, akeys_cons]
    rw [ih]

theorem recomputeShares_keys (d : DirStats) :
    akeys (recomputeShares d).authors = akeys d.authors := by
  by_cases h : 0 < d.totalChanges
  · simp only [recomputeShares, h, ite_true]
    exact akeys_map_pair _ d.authors
  · simp [recomputeShares, h]

theorem alookup_recompute_none {d : DirStats} {x : String}
    (h : alookup x d.authors = none) :
    alookup x (recomputeShares d).authors = none := by
  rw [alookup_eq_none_iff, recomputeShares_keys]
  exact alookup_eq_none_iff.mp h

theorem share_upd_idem (T : ℚ) (l : List (String × DirAuthorStats)) :
    ((l.map (fun ea => (ea.1, { ea.2 with share := (ea.2.changes : ℚ) / T * 100 }))).map
        (fun ea => (ea.1, { ea.2 with share := (ea.2.changes : ℚ) / T * 100 })))
      = l.map (fun ea => (ea.1, { ea.2 with share := (ea.2.changes : ℚ) / T * 100 })) := by
  induction l with
  | nil => rfl
  | cons p l ih =>
    obtain ⟨k, w⟩ := p
    simp only [List.map_cons]
    rw [ih]

theorem recomputeShares_idem (d : DirStats) :
    recomputeShares (recomputeShares d) = recomputeShares d := by
  by_cases h : 0 < d.totalChanges
  · simp only [recomputeShares, h, ite_true]
    congr 1
    exact share_upd_idem (d.totalChanges : ℚ) d.authors
  · have hid : recomputeShares d = d := by simp [recomputeShares, h]
    rw [hid]
    exact hid

theorem repo_update_self (r : Repository)
    {a : List (String × AuthorStats)} {t : Int} {f : List (String × FileStats)}
    {d : List (String × DirStats)}
    (ha : a = r.authors) (ht : t = r.totalAuthors) (hf : f = r.fileStats)
    (hd : d = r.dirStats) :
    ({ r with authors := a, totalAuthors := t, fileStats := f, dirStats := d }
      : Repository) = r := by
  subst ha
  subst ht
  subst hf
  subst hd
  rfl

end IdemRecomputeLemmas

/-- C7: for every repository model whose indices are genuine maps (no
duplicated keys, as Go maps guarantee) and every well-formed identity
merge mapping (distinct alias keys, every primary mapping to itself),
applying the merge twice equals applying it once: after the first pass
each alias entry has its alias accumulator deleted or its primary still
absent, alias keys are purged from every file and directory author
index and never re-introduced because targets are self-mapped keys, and
the share recomputation is idempotent. -/
theorem c7_merge_idempotent (r : Repository) (ms : List (String × String))
    (hkeys : (ms.map Prod.fst).Nodup)
    (hwf : ∀ ap ∈ ms, (ap.2, ap.2) ∈ ms)
    (hA : (akeys r.authors).Nodup)
    (hF : ∀ kf ∈ r.fileStats, (akeys kf.2.authors).Nodup)
    (hD : ∀ kd ∈ r.dirStats, (akeys kd.2.authors).Nodup) :
    applyAuthorMerges (applyAuthorMerges r ms) ms = applyAuthorMerges r ms := by
  by_cases hm : ms = []
  · subst hm
    simp [applyAuthorMerges]
  · have hunfold : applyAuthorMerges (applyAuthorMerges r ms) ms =
      { applyAuthorMerges r ms with
        authors := (ms.foldl mergeAuthorPair
          ((applyAuthorMerges r ms).authors, (applyAuthorMerges r ms).totalAuthors)).1
        totalAuthors := (ms.foldl mergeAuthorPair
          ((applyAuthorMerges r ms).authors, (applyAuthorMerges r ms).totalAuthors)).2
        fileStats := (applyAuthorMerges r ms).fileStats.map (fun kf =>
          (kf.1, { kf.2 with authors := ms.foldl rekeyFileAuthors kf.2.authors }))
        dirStats := (applyAuthorMerges r ms).dirStats.map (fun kd =>
          (kd.1, recomputeShares
            { kd.2 with authors := ms.foldl rekeyDirAuthors kd.2.authors })) } := by
      simp [applyAuthorMerges, hm]
    rw [hunfold]
    have hpair : ((applyAuthorMerges r ms).authors, (applyAuthorMerges r ms).totalAuthors)
        = ms.foldl mergeAuthorPair (r.authors, r.totalAuthors) := by
      rw [applyAuthorMerges_authors, applyAuthorMerges_totalAuthors]
      simp [hm]
    have hidemA := mergeFold_idem ms (r.authors, r.totalAuthors) hA
    apply repo_update_self
    · rw [hpair, hidemA]
      rw [applyAuthorMerges_authors]
      simp [hm]
    · rw [hpair, hidemA]
      rw [applyAuthorMerges_totalAuthors]
      simp [hm]
    · have hpt : ∀ kf ∈ (applyAuthorMerges r ms).fileStats,
          ((kf.1, { kf.2 with authors := ms.foldl rekeyFileAuthors kf.2.authors })
            : String × FileStats) = kf := by
        intro kf hkf
        rw [applyAuthorMerges_fileStats] at hkf
        simp only [hm, ite_false, if_neg, List.mem_map] at hkf
        rcases hkf with ⟨kf0, hkf0, heq⟩
        subst heq
        show ((kf0.1, { kf0.2 with
            authors := ms.foldl rekeyFileAuthors
              (ms.foldl rekeyFileAuthors kf0.2.authors) }) : String × FileStats)
          = (kf0.1, { kf0.2 with authors := ms.foldl rekeyFileAuthors kf0.2.authors })
        rw [rekeyFileFold_idem hkeys hwf kf0.2.authors (hF kf0 hkf0)]
      calc (applyAuthorMerges r ms).fileStats.map (fun kf =>
            (kf.1, { kf.2 with authors := ms.foldl rekeyFileAuthors kf.2.authors }))
          = (applyAuthorMerges r ms).fileStats.map (fun kf => kf) :=
            List.map_congr_left hpt
        _ = (applyAuthorMerges r ms).fileStats := List.map_id' _
    · have hpt : ∀ kd ∈ (applyAuthorMerges r ms).dirStats,
          ((kd.1, recomputeShares
              { kd.2 with authors := ms.foldl rekeyDirAuthors kd.2.authors })
            : String × DirStats) = kd := by
        intro kd hkd
        rw [applyAuthorMerges_dirStats] at hkd
        simp only [hm, ite_false, if_neg, List.mem_map] at hkd
        rcases hkd with ⟨kd0, hkd0, heq⟩
        subst heq
        have habs : ∀ ap ∈ ms, ap.1 ≠ ap.2 →
            alookup ap.1 (recomputeShares
              { kd0.2 with authors := ms.foldl rekeyDirAuthors kd0.2.authors }).authors
              = none := by
          intro ap hap hne
          exact alookup_recompute_none
            (rekeyDirFold_post hkeys hwf kd0.2.authors (hD kd0 hkd0) ap hap hne)
        show ((kd0.1, recomputeShares
            { (recomputeShares { kd0.2 with
                authors := ms.foldl rekeyDirAuthors kd0.2.authors }) with
              authors := ms.foldl rekeyDirAuthors
                (recomputeShares { kd0.2 with
                  authors := ms.foldl rekeyDirAuthors kd0.2.authors }).authors })
            : String × DirStats)
          = (kd0.1, recomputeShares
              { kd0.2 with authors := ms.foldl rekeyDirAuthors kd0.2.authors })
        rw [rekeyDirFold_id ms _ habs]
        show ((kd0.1, recomputeShares (recomputeShares
            { kd0.2 with authors := ms.foldl rekeyDirAuthors kd0.2.authors }))
            : String × DirStats)
          = (kd0.1, recomputeShares
              { kd0.2 with authors := ms.foldl rekeyDirAuthors kd0.2.authors })
        rw [recomputeShares_idem]
      calc (applyAuthorMerges r ms).dirStats.map (fun kd =>
            (kd.1, recomputeShares
              { kd.2 with authors := ms.foldl rekeyDirAuthors kd.2.authors }))
          = (applyAuthorMerges r ms).dirStats.map (fun kd => kd) :=
            List.map_congr_left hpt
        _ = (applyAuthorMerges r ms).dirStats := List.map_id' _

/-- C7 witness: the scenario model with the two-entry mapping folding
b@x.com into a@x.com, whose second application leaves the merged model
unchanged. -/
theorem c7_witness :
    ((demoMerges.map Prod.fst).Nodup ∧
      (∀ ap ∈ demoMerges, (ap.2, ap.2) ∈ demoMerges) ∧
      (akeys demoRepo.authors).Nodup ∧
      (∀ kf ∈ demoRepo.fileStats, (akeys kf.2.authors).Nodup) ∧
      (∀ kd ∈ demoRepo.dirStats, (akeys kd.2.authors).Nodup)) ∧
    applyAuthorMerges (applyAuthorMerges demoRepo demoMerges) demoMerges
      = applyAuthorMerges demoRepo demoMerges :=
  ⟨⟨by decide, by decide, by decide, by decide, by decide⟩,
    c7_merge_idempotent demoRepo demoMerges (by decide) (by decide) (by decide)
      (by decide) (by decide)⟩

end Gitstat
